import Mathlib

/-!
Shallow embedding of `intlog.py`: integer logarithm and power functions in four
rounding variants, backed by a per-base lookup table indexed by bit length.

The module-level dictionary `_lut` is modeled as a function from integer bases to
optional tables; every Python function that can mutate it returns the new registry
alongside its result, and every Python `raise` is an `Except.error` carrying the
exception class.  Python `while` loops are modeled with an explicit fuel argument;
each use supplies fuel that is provably enough for the loop to exit by its own
guard on all inputs the claims range over (any base with absolute value ≥ 2).
-/

namespace Intlog

/-- Python `int.bit_length()`: the bit length of the absolute value. -/
def bit_length (n : Int) : Nat := n.natAbs.size

/-- The Python exception classes the module can raise. -/
inductive Err
  | typeError
  | valueError
  | keyError
  | indexError
deriving DecidableEq

/-- A Python numeric argument: an `int`, or a `float` (modeled as the rational it
denotes; `isinstance(base, int)` is false for every float, even an integral one). -/
inductive PyNum
  | int (i : Int)
  | float (q : ℚ)
deriving DecidableEq

/-- One slot of a lookup table: `None` at index 0, an `(exponent, power)` pair above. -/
abbrev Entry := Option (Int × Int)

abbrev Table := List Entry

/-- The module-level registry `_lut`; tables are only ever created under `int` keys. -/
abbrev Lut := Int → Option Table

/-- The registry at process start: `_lut = {}`. -/
def emptyLut : Lut := fun _ => none

/-- Store a table under an integer base key. -/
def lutInsert (lut : Lut) (b : Int) (t : Table) : Lut :=
  fun x => if x = b then some t else lut x

/-- Python dict lookup `_lut[base]`: numeric keys compare by value, so a float that
denotes an integer finds the table stored under that integer. -/
def lutFind (lut : Lut) : PyNum → Option Table
  | .int i => lut i
  | .float q => if q.den = 1 then lut q.num else none

/-- The four rounding modes (also the four comparison functions of the `operator`
module that `_ROUNDING` accepts as keys). -/
inductive Mode
  | gt
  | ge
  | lt
  | le
deriving DecidableEq

/-- The possible values of the `rounding` argument, i.e. the key space of the
`_ROUNDING` dictionary: the four tag strings, the four `operator` comparison
functions, the six comparison symbol strings, and anything else (mapped by no key). -/
inductive RoundArg
  | tagGt                 -- the string 'gt'
  | tagGe                 -- the string 'ge'
  | tagLt                 -- the string 'lt'
  | tagLe                 -- the string 'le'
  | opFn (m : Mode)       -- operator.gt / operator.ge / operator.lt / operator.le
  | symGt                 -- the string '>'
  | symGe                 -- the string '>='
  | symGe2                -- the string '≥'
  | symLt                 -- the string '<'
  | symLe                 -- the string '<='
  | symLe2                -- the string '≤'
  | other                 -- any other dictionary key: lookup raises KeyError
deriving DecidableEq

/-- Python `power * base` for an int `power` and a numeric `base` (`operator.mul`). -/
def pyMul (a : Int) : PyNum → PyNum
  | .int n => .int (a * n)
  | .float q => .float (a * q)

/-- Python `power // base` for an int `power` and a numeric `base`
(`operator.floordiv`; floor division, and `int // float` is a float). -/
def pyFloordiv (a : Int) : PyNum → PyNum
  | .int n => .int (Int.fdiv a n)
  | .float q => .float ((⌊(a : ℚ) / q⌋ : Int) : ℚ)

/-- The value of one `_ROUNDING` entry:
`(add_op, cmp_op, mul_op, boundary cmp_op, subtraction flag)`. -/
abbrev RoundOps :=
  (Int → Int → Int) × (Int → Int → Bool) × (Int → PyNum → PyNum) × (Int → Int → Bool) × Int

/-- The `'gt'` tuple: `(operator.add, operator.ge, operator.mul, operator.le, 0)`. -/
def gtOps : RoundOps :=
  ((· + ·), fun v p => decide (v ≥ p), pyMul, fun p v => decide (p ≤ v), 0)

/-- The `'ge'` tuple: `(operator.add, operator.gt, operator.mul, operator.lt, 0)`. -/
def geOps : RoundOps :=
  ((· + ·), fun v p => decide (v > p), pyMul, fun p v => decide (p < v), 0)

/-- The `'lt'` tuple: `(operator.sub, operator.le, operator.floordiv, operator.lt, 1)`. -/
def ltOps : RoundOps :=
  ((· - ·), fun v p => decide (v ≤ p), pyFloordiv, fun p v => decide (p < v), 1)

/-- The `'le'` tuple: `(operator.sub, operator.lt, operator.floordiv, operator.le, 1)`. -/
def leOps : RoundOps :=
  ((· - ·), fun v p => decide (v < p), pyFloordiv, fun p v => decide (p ≤ v), 1)

/-- The `_ROUNDING` dictionary after its three construction passes: the tag strings,
the `operator` comparison functions, and the symbol strings all map onto the same
four tuples; any other key is absent. -/
def ROUNDING : RoundArg → Option RoundOps
  | .tagGt => some gtOps
  | .tagGe => some geOps
  | .tagLt => some ltOps
  | .tagLe => some leOps
  | .opFn .gt => some gtOps
  | .opFn .ge => some geOps
  | .opFn .lt => some ltOps
  | .opFn .le => some leOps
  | .symGt => some gtOps
  | .symGe => some geOps
  | .symGe2 => some geOps
  | .symLt => some ltOps
  | .symLe => some leOps
  | .symLe2 => some leOps
  | .other => none

/-- `_init_base`: validate the base, then fetch its table or create the seeded one
(`_lut.setdefault(base, [None, (0, 1)])`), and unpack the table's last entry.
On success returns `(base, limits, exponent, power, updated registry)`. -/
def init_base (base : PyNum) (lut : Lut) : Except Err (Int × Table × Int × Int × Lut) :=
  match base with
  | .float _ => .error .typeError
  | .int b =>
    if b ≤ 1 then .error .valueError
    else
      let limits := (lut b).getD [none, some (0, 1)]
      match limits.getLast? with
      | some (some (exponent, power)) => .ok (b, limits, exponent, power, lutInsert lut b limits)
      | some none => .error .typeError
      | none => .error .indexError

/-- `_init_next_power`: append the `(exponent, power)` checkpoint at every index from
the current table length through `power.bit_length()` (the `while len(limits) <= bitlen`
loop, which appends a fixed number of copies); returns the table and that bit length. -/
def init_next_power (limits : Table) (exponent power : Int) : Table × Nat :=
  let bitlen := bit_length power
  (limits ++ List.replicate (bitlen + 1 - limits.length) (some (exponent, power)), bitlen)

/-- The `for exponent in range(exponent + 1, max_exponent + 1)` loop of
`extend_fast_range_to_power`, iterated the given number of times. -/
def extendPowerLoop (base : Int) (limits : Table) (exponent power : Int) :
    Nat → Table × Int × Int
  | 0 => (limits, exponent, power)
  | count + 1 =>
    let exponent' := exponent + 1
    let power' := power * base
    extendPowerLoop base (init_next_power limits exponent' power').1 exponent' power' count

/-- `extend_fast_range_to_power(max_exponent, base)`. -/
def extend_fast_range_to_power (max_exponent : Int) (base : PyNum) (lut : Lut) :
    Except Err (Int × Int) × Lut :=
  match init_base base lut with
  | .error e => (.error e, lut)
  | .ok (b, limits, exponent, power, lut₁) =>
    let r := extendPowerLoop b limits exponent power (max_exponent - exponent).toNat
    (.ok (r.2.1, r.2.2), lutInsert lut₁ b r.1)

/-- The `while bitlen < max_bitlen` loop of `extend_fast_range_to_bitlen`.  The fuel
bounds the iterations; with the fuel supplied below the guard fails before the fuel
runs out for every base ≥ 2 (the only bases that pass `_init_base`), because each
iteration increases `bitlen` by at least one. -/
def extendBitlenLoop (base maxBitlen : Int) (limits : Table) (exponent power : Int)
    (bitlen : Nat) : Nat → Table × Int × Int
  | 0 => (limits, exponent, power)
  | fuel + 1 =>
    if (bitlen : Int) < maxBitlen then
      let power' := power * base
      let exponent' := exponent + 1
      let r := init_next_power limits exponent' power'
      extendBitlenLoop base maxBitlen r.1 exponent' power' r.2 fuel
    else (limits, exponent, power)

/-- `extend_fast_range_to_bitlen(max_bitlen, base)`. -/
def extend_fast_range_to_bitlen (max_bitlen : Int) (base : PyNum) (lut : Lut) :
    Except Err (Int × Int) × Lut :=
  match init_base base lut with
  | .error e => (.error e, lut)
  | .ok (b, limits, exponent, power, lut₁) =>
    let bitlen := limits.length - 1
    let r := extendBitlenLoop b max_bitlen limits exponent power bitlen
      (max_bitlen - bitlen).toNat
    (.ok (r.2.1, r.2.2), lutInsert lut₁ b r.1)

/-- The `try: exponent, power = _lut[base][value.bit_length()] / except (KeyError,
IndexError): ... = extend_fast_range_to_bitlen(value.bit_length(), base)` block shared
by every auto-extending query. -/
def lookup_or_extend (base : PyNum) (lut : Lut) (bitlen : Nat) :
    Except Err (Int × Int) × Lut :=
  match lutFind lut base with
  | some limits =>
    match limits[bitlen]? with
    | some (some (exponent, power)) => (.ok (exponent, power), lut)
    | some none => (.error .typeError, lut)
    | none => extend_fast_range_to_bitlen (bitlen : Int) base lut
  | none => extend_fast_range_to_bitlen (bitlen : Int) base lut

/-- `gt_log(value, base)`. -/
def gt_log (value : Int) (base : PyNum) (lut : Lut) : Except Err Int × Lut :=
  if value ≤ 0 then (.error .valueError, lut)
  else
    match lookup_or_extend base lut (bit_length value) with
    | (.ok (exponent, power), lut') =>
      (.ok (exponent + if value ≥ power then 1 else 0), lut')
    | (.error e, lut') => (.error e, lut')

/-- `ge_log(value, base)`. -/
def ge_log (value : Int) (base : PyNum) (lut : Lut) : Except Err Int × Lut :=
  if value ≤ 0 then (.error .valueError, lut)
  else
    match lookup_or_extend base lut (bit_length value) with
    | (.ok (exponent, power), lut') =>
      (.ok (exponent + if value > power then 1 else 0), lut')
    | (.error e, lut') => (.error e, lut')

/-- `lt_log(value, base)`. -/
def lt_log (value : Int) (base : PyNum) (lut : Lut) : Except Err Int × Lut :=
  if value ≤ 0 then (.error .valueError, lut)
  else
    match lookup_or_extend base lut (bit_length value) with
    | (.ok (exponent, power), lut') =>
      (.ok (exponent - if value ≤ power then 1 else 0), lut')
    | (.error e, lut') => (.error e, lut')

/-- `le_log(value, base)`. -/
def le_log (value : Int) (base : PyNum) (lut : Lut) : Except Err Int × Lut :=
  if value ≤ 0 then (.error .valueError, lut)
  else
    match lookup_or_extend base lut (bit_length value) with
    | (.ok (exponent, power), lut') =>
      (.ok (exponent - if value < power then 1 else 0), lut')
    | (.error e, lut') => (.error e, lut')

/-- `int_log(value, base, rounding)`. -/
def int_log (value : Int) (base : PyNum) (rounding : RoundArg) (lut : Lut) :
    Except Err Int × Lut :=
  if value ≤ 0 then (.error .valueError, lut)
  else
    match ROUNDING rounding with
    | none => (.error .keyError, lut)
    | some (add_op, cmp_op, _, _, _) =>
      match lookup_or_extend base lut (bit_length value) with
      | (.ok (exponent, power), lut') =>
        (.ok (add_op exponent (if cmp_op value power then 1 else 0)), lut')
      | (.error e, lut') => (.error e, lut')

/-- `fast_gt_log(value, base)`: direct table lookup, no domain check, no extension. -/
def fast_gt_log (value : Int) (base : PyNum) (lut : Lut) : Except Err Int :=
  match lutFind lut base with
  | none => .error .keyError
  | some limits =>
    match limits[bit_length value]? with
    | none => .error .indexError
    | some none => .error .typeError
    | some (some (exponent, power)) => .ok (exponent + if value ≥ power then 1 else 0)

/-- `fast_ge_log(value, base)`. -/
def fast_ge_log (value : Int) (base : PyNum) (lut : Lut) : Except Err Int :=
  match lutFind lut base with
  | none => .error .keyError
  | some limits =>
    match limits[bit_length value]? with
    | none => .error .indexError
    | some none => .error .typeError
    | some (some (exponent, power)) => .ok (exponent + if value > power then 1 else 0)

/-- `fast_lt_log(value, base)`. -/
def fast_lt_log (value : Int) (base : PyNum) (lut : Lut) : Except Err Int :=
  match lutFind lut base with
  | none => .error .keyError
  | some limits =>
    match limits[bit_length value]? with
    | none => .error .indexError
    | some none => .error .typeError
    | some (some (exponent, power)) => .ok (exponent - if value ≤ power then 1 else 0)

/-- `fast_le_log(value, base)`. -/
def fast_le_log (value : Int) (base : PyNum) (lut : Lut) : Except Err Int :=
  match lutFind lut base with
  | none => .error .keyError
  | some limits =>
    match limits[bit_length value]? with
    | none => .error .indexError
    | some none => .error .typeError
    | some (some (exponent, power)) => .ok (exponent - if value < power then 1 else 0)

/-- `fast_int_log(value, base, rounding)`. -/
def fast_int_log (value : Int) (base : PyNum) (rounding : RoundArg) (lut : Lut) :
    Except Err Int :=
  match ROUNDING rounding with
  | none => .error .keyError
  | some (add_op, cmp_op, _, _, _) =>
    match lutFind lut base with
    | none => .error .keyError
    | some limits =>
      match limits[bit_length value]? with
      | none => .error .indexError
      | some none => .error .typeError
      | some (some (exponent, power)) =>
        .ok (add_op exponent (if cmp_op value power then 1 else 0))

/-- The `while cmp(power, value): power *= base; exponent += 1` loop shared by the
slow logarithm functions, with explicit fuel (enough for any base of absolute
value ≥ 2, see `slowFuel`). -/
def slowLogLoop (cmp : Int → Int → Bool) (base value exponent power : Int) :
    Nat → Int × Int
  | 0 => (exponent, power)
  | fuel + 1 =>
    if cmp power value then slowLogLoop cmp base value (exponent + 1) (power * base) fuel
    else (exponent, power)

/-- Fuel for the slow loops: any base with `|base| ≥ 2` makes `|power|` at least double
every second iteration, so the guard fails within `2 * bit_length value + 2` rounds. -/
def slowFuel (value : Int) : Nat := 2 * bit_length value + 2

/-- `slow_gt_log(value, base)`. -/
def slow_gt_log (value base : Int) : Except Err Int :=
  if value ≤ 0 then .error .valueError
  else .ok (slowLogLoop (fun p v => decide (p ≤ v)) base value 0 1 (slowFuel value)).1

/-- `slow_ge_log(value, base)`. -/
def slow_ge_log (value base : Int) : Except Err Int :=
  if value ≤ 0 then .error .valueError
  else .ok (slowLogLoop (fun p v => decide (p < v)) base value 0 1 (slowFuel value)).1

/-- `slow_lt_log(value, base)`. -/
def slow_lt_log (value base : Int) : Except Err Int :=
  if value ≤ 0 then .error .valueError
  else .ok ((slowLogLoop (fun p v => decide (p < v)) base value 0 1 (slowFuel value)).1 - 1)

/-- `slow_le_log(value, base)`. -/
def slow_le_log (value base : Int) : Except Err Int :=
  if value ≤ 0 then .error .valueError
  else .ok ((slowLogLoop (fun p v => decide (p ≤ v)) base value 0 1 (slowFuel value)).1 - 1)

/-- `slow_int_log(value, base, rounding)`. -/
def slow_int_log (value base : Int) (rounding : RoundArg) : Except Err Int :=
  if value ≤ 0 then .error .valueError
  else
    match ROUNDING rounding with
    | none => .error .keyError
    | some (_, _, _, cmp_op, sub) =>
      .ok ((slowLogLoop cmp_op base value 0 1 (slowFuel value)).1 - sub)

/-- `gt_pow(value, base)` (the result is a Python number: an int for an int base). -/
def gt_pow (value : Int) (base : PyNum) (lut : Lut) : Except Err PyNum × Lut :=
  if value ≤ 0 then (.error .valueError, lut)
  else
    match lookup_or_extend base lut (bit_length value) with
    | (.ok (_, power), lut') =>
      (.ok (if value ≥ power then pyMul power base else .int power), lut')
    | (.error e, lut') => (.error e, lut')

/-- `ge_pow(value, base)`. -/
def ge_pow (value : Int) (base : PyNum) (lut : Lut) : Except Err PyNum × Lut :=
  if value ≤ 0 then (.error .valueError, lut)
  else
    match lookup_or_extend base lut (bit_length value) with
    | (.ok (_, power), lut') =>
      (.ok (if value > power then pyMul power base else .int power), lut')
    | (.error e, lut') => (.error e, lut')

/-- `lt_pow(value, base)`. -/
def lt_pow (value : Int) (base : PyNum) (lut : Lut) : Except Err PyNum × Lut :=
  if value ≤ 0 then (.error .valueError, lut)
  else
    match lookup_or_extend base lut (bit_length value) with
    | (.ok (_, power), lut') =>
      (.ok (if value ≤ power then pyFloordiv power base else .int power), lut')
    | (.error e, lut') => (.error e, lut')

/-- `le_pow(value, base)`. -/
def le_pow (value : Int) (base : PyNum) (lut : Lut) : Except Err PyNum × Lut :=
  if value ≤ 0 then (.error .valueError, lut)
  else
    match lookup_or_extend base lut (bit_length value) with
    | (.ok (_, power), lut') =>
      (.ok (if value < power then pyFloordiv power base else .int power), lut')
    | (.error e, lut') => (.error e, lut')

/-- `int_pow(value, base, rounding)`. -/
def int_pow (value : Int) (base : PyNum) (rounding : RoundArg) (lut : Lut) :
    Except Err PyNum × Lut :=
  if value ≤ 0 then (.error .valueError, lut)
  else
    match ROUNDING rounding with
    | none => (.error .keyError, lut)
    | some (_, cmp_op, mul_op, _, _) =>
      match lookup_or_extend base lut (bit_length value) with
      | (.ok (_, power), lut') =>
        (.ok (if cmp_op value power then mul_op power base else .int power), lut')
      | (.error e, lut') => (.error e, lut')

/-- `fast_gt_pow(value, base)`. -/
def fast_gt_pow (value : Int) (base : PyNum) (lut : Lut) : Except Err PyNum :=
  match lutFind lut base with
  | none => .error .keyError
  | some limits =>
    match limits[bit_length value]? with
    | none => .error .indexError
    | some none => .error .typeError
    | some (some (_, power)) => .ok (if value ≥ power then pyMul power base else .int power)

/-- `fast_ge_pow(value, base)`. -/
def fast_ge_pow (value : Int) (base : PyNum) (lut : Lut) : Except Err PyNum :=
  match lutFind lut base with
  | none => .error .keyError
  | some limits =>
    match limits[bit_length value]? with
    | none => .error .indexError
    | some none => .error .typeError
    | some (some (_, power)) => .ok (if value > power then pyMul power base else .int power)

/-- `fast_lt_pow(value, base)`. -/
def fast_lt_pow (value : Int) (base : PyNum) (lut : Lut) : Except Err PyNum :=
  match lutFind lut base with
  | none => .error .keyError
  | some limits =>
    match limits[bit_length value]? with
    | none => .error .indexError
    | some none => .error .typeError
    | some (some (_, power)) => .ok (if value ≤ power then pyFloordiv power base else .int power)

/-- `fast_le_pow(value, base)`. -/
def fast_le_pow (value : Int) (base : PyNum) (lut : Lut) : Except Err PyNum :=
  match lutFind lut base with
  | none => .error .keyError
  | some limits =>
    match limits[bit_length value]? with
    | none => .error .indexError
    | some none => .error .typeError
    | some (some (_, power)) => .ok (if value < power then pyFloordiv power base else .int power)

/-- `fast_int_pow(value, base, rounding)`. -/
def fast_int_pow (value : Int) (base : PyNum) (rounding : RoundArg) (lut : Lut) :
    Except Err PyNum :=
  match ROUNDING rounding with
  | none => .error .keyError
  | some (_, cmp_op, mul_op, _, _) =>
    match lutFind lut base with
    | none => .error .keyError
    | some limits =>
      match limits[bit_length value]? with
      | none => .error .indexError
      | some none => .error .typeError
      | some (some (_, power)) =>
        .ok (if cmp_op value power then mul_op power base else .int power)

/-- The `while cmp(power, value): power *= base` loop shared by the slow power
functions, with explicit fuel (see `slowFuel`). -/
def slowPowLoop (cmp : Int → Int → Bool) (base value power : Int) : Nat → Int
  | 0 => power
  | fuel + 1 =>
    if cmp power value then slowPowLoop cmp base value (power * base) fuel
    else power

/-- `slow_gt_pow(value, base)`. -/
def slow_gt_pow (value base : Int) : Except Err Int :=
  if value ≤ 0 then .error .valueError
  else .ok (slowPowLoop (fun p v => decide (p ≤ v)) base value 1 (slowFuel value))

/-- `slow_ge_pow(value, base)`. -/
def slow_ge_pow (value base : Int) : Except Err Int :=
  if value ≤ 0 then .error .valueError
  else .ok (slowPowLoop (fun p v => decide (p < v)) base value 1 (slowFuel value))

/-- `slow_lt_pow(value, base)`. -/
def slow_lt_pow (value base : Int) : Except Err Int :=
  if value ≤ 0 then .error .valueError
  else .ok (Int.fdiv (slowPowLoop (fun p v => decide (p < v)) base value 1 (slowFuel value)) base)

/-- `slow_le_pow(value, base)`. -/
def slow_le_pow (value base : Int) : Except Err Int :=
  if value ≤ 0 then .error .valueError
  else .ok (Int.fdiv (slowPowLoop (fun p v => decide (p ≤ v)) base value 1 (slowFuel value)) base)

/-- `slow_int_pow(value, base, rounding)`. -/
def slow_int_pow (value base : Int) (rounding : RoundArg) : Except Err Int :=
  if value ≤ 0 then .error .valueError
  else
    match ROUNDING rounding with
    | none => .error .keyError
    | some (_, _, _, cmp_op, sub) =>
      let power := slowPowLoop cmp_op base value 1 (slowFuel value)
      .ok (if sub ≠ 0 then Int.fdiv power base else power)

/-- Select the dedicated auto-extending log function named after a mode. -/
def mode_log : Mode → Int → PyNum → Lut → Except Err Int × Lut
  | .gt => gt_log
  | .ge => ge_log
  | .lt => lt_log
  | .le => le_log

/-- Select the dedicated auto-extending pow function named after a mode. -/
def mode_pow : Mode → Int → PyNum → Lut → Except Err PyNum × Lut
  | .gt => gt_pow
  | .ge => ge_pow
  | .lt => lt_pow
  | .le => le_pow

/-- Select the dedicated fast log function named after a mode. -/
def mode_fast_log : Mode → Int → PyNum → Lut → Except Err Int
  | .gt => fast_gt_log
  | .ge => fast_ge_log
  | .lt => fast_lt_log
  | .le => fast_le_log

/-- Select the dedicated fast pow function named after a mode. -/
def mode_fast_pow : Mode → Int → PyNum → Lut → Except Err PyNum
  | .gt => fast_gt_pow
  | .ge => fast_ge_pow
  | .lt => fast_lt_pow
  | .le => fast_le_pow

/-- Select the dedicated slow log function named after a mode. -/
def mode_slow_log : Mode → Int → Int → Except Err Int
  | .gt => slow_gt_log
  | .ge => slow_ge_log
  | .lt => slow_lt_log
  | .le => slow_le_log

/-- Select the dedicated slow pow function named after a mode. -/
def mode_slow_pow : Mode → Int → Int → Except Err Int
  | .gt => slow_gt_pow
  | .ge => slow_ge_pow
  | .lt => slow_lt_pow
  | .le => slow_le_pow

/-- The `_ROUNDING` keys that are aliases of a given mode. -/
def aliases : Mode → List RoundArg
  | .gt => [.tagGt, .opFn .gt, .symGt]
  | .ge => [.tagGe, .opFn .ge, .symGe, .symGe2]
  | .lt => [.tagLt, .opFn .lt, .symLt]
  | .le => [.tagLe, .opFn .le, .symLe, .symLe2]

end Intlog

namespace Intlog

/-! ### Bit-length arithmetic

`bit_length` is `Nat.size` of the absolute value; these lemmas relate it to powers
of two and record how it grows along the powers of a fixed base `b ≥ 2`. -/

theorem bit_length_pow_pos (b : Int) (hb : 2 ≤ b) (n : Nat) : 1 ≤ bit_length (b ^ n) := by
  have hpos : 0 < b ^ n := pow_pos (by omega) n
  have : 0 < (b ^ n).natAbs := by omega
  exact Nat.size_pos.mpr this

theorem bit_length_pow_lt_succ (b : Int) (hb : 2 ≤ b) (n : Nat) :
    bit_length (b ^ n) < bit_length (b ^ (n + 1)) := by
  have ha : 2 ≤ b.natAbs := by omega
  have hm : 1 ≤ b.natAbs ^ n := Nat.one_le_pow _ _ (by omega)
  have hsz : 1 ≤ (b.natAbs ^ n).size := Nat.size_pos.mpr hm
  unfold bit_length
  rw [Int.natAbs_pow, Int.natAbs_pow]
  apply Nat.lt_size.mpr
  have h1 : 2 ^ (b.natAbs ^ n).size = 2 ^ ((b.natAbs ^ n).size - 1) * 2 := by
    rw [← Nat.pow_succ]
    congr 1
    omega
  have h2 : 2 ^ ((b.natAbs ^ n).size - 1) ≤ b.natAbs ^ n :=
    Nat.lt_size.mp (by omega)
  calc 2 ^ (b.natAbs ^ n).size = 2 ^ ((b.natAbs ^ n).size - 1) * 2 := h1
    _ ≤ b.natAbs ^ n * 2 := Nat.mul_le_mul_right 2 h2
    _ ≤ b.natAbs ^ n * b.natAbs := Nat.mul_le_mul_left _ ha
    _ = b.natAbs ^ (n + 1) := by rw [Nat.pow_succ]

theorem bit_length_pow_mono (b : Int) (hb : 2 ≤ b) {m n : Nat} (h : m ≤ n) :
    bit_length (b ^ m) ≤ bit_length (b ^ n) := by
  unfold bit_length
  rw [Int.natAbs_pow, Int.natAbs_pow]
  exact Nat.size_le_size (Nat.pow_le_pow_right (by omega) h)

theorem bit_length_pow_strictMono (b : Int) (hb : 2 ≤ b) {m n : Nat} (h : m < n) :
    bit_length (b ^ m) < bit_length (b ^ n) := by
  calc bit_length (b ^ m) < bit_length (b ^ (m + 1)) := bit_length_pow_lt_succ b hb m
    _ ≤ bit_length (b ^ n) := bit_length_pow_mono b hb h

theorem lt_two_pow_bit_length (v : Int) (hv : 0 ≤ v) : v < 2 ^ bit_length v := by
  have h2 : ((v.natAbs : Int)) < ((2 ^ v.natAbs.size : Nat) : Int) := by
    exact_mod_cast Nat.lt_size_self v.natAbs
  rw [Int.natAbs_of_nonneg hv] at h2
  unfold bit_length
  exact_mod_cast h2

theorem two_pow_pred_le (v : Int) (hv : 1 ≤ v) : 2 ^ (bit_length v - 1) ≤ v := by
  have hsz : 1 ≤ v.natAbs.size := Nat.size_pos.mpr (by omega)
  have h : 2 ^ (v.natAbs.size - 1) ≤ v.natAbs := Nat.lt_size.mp (by omega)
  have h2 : ((2 ^ (v.natAbs.size - 1) : Nat) : Int) ≤ (v.natAbs : Int) := by exact_mod_cast h
  rw [Int.natAbs_of_nonneg (by omega : (0:Int) ≤ v)] at h2
  unfold bit_length
  exact_mod_cast h2

theorem pow_lt_of_bit_length_lt (b : Int) (hb : 2 ≤ b) {j i : Nat} (hi : 1 ≤ i)
    (h : bit_length (b ^ j) < i) : b ^ j < 2 ^ (i - 1) := by
  have h1 : (b ^ j).natAbs.size ≤ i - 1 := by unfold bit_length at h; omega
  have h2 : (b ^ j).natAbs < 2 ^ (i - 1) := Nat.size_le.mp h1
  have h3 : 0 ≤ b ^ j := le_of_lt (pow_pos (by omega) j)
  have h4 : (((b ^ j).natAbs : Int)) < ((2 ^ (i - 1) : Nat) : Int) := by exact_mod_cast h2
  rw [Int.natAbs_of_nonneg h3] at h4
  exact_mod_cast h4

theorem two_pow_le_of_le_bit_length (b : Int) (hb : 2 ≤ b) {e i : Nat} (hi : 1 ≤ i)
    (h : i ≤ bit_length (b ^ e)) : 2 ^ (i - 1) ≤ b ^ e := by
  have h1 : i - 1 < (b ^ e).natAbs.size := by unfold bit_length at h; omega
  have h2 : 2 ^ (i - 1) ≤ (b ^ e).natAbs := Nat.lt_size.mp h1
  have h3 : 0 ≤ b ^ e := le_of_lt (pow_pos (by omega) e)
  have h4 : ((2 ^ (i - 1) : Nat) : Int) ≤ (((b ^ e).natAbs : Int)) := by exact_mod_cast h2
  rw [Int.natAbs_of_nonneg h3] at h4
  exact_mod_cast h4

end Intlog

namespace Intlog

/-! ### The canonical table

Extension is deterministic and append-only, so the table stored for a base `b ≥ 2`
after any sequence of operations is always `tableN b n` for some `n`: the table
produced by running the extension step `n` times from the seeded table. -/

/-- The table for base `b` after `n` extension steps from the seed `[None, (0, 1)]`. -/
def tableN (b : Int) (n : Nat) : Table :=
  (extendPowerLoop b [none, some (0, 1)] 0 1 n).1

theorem extendPowerLoop_append (b : Int) (c : Nat) :
    ∀ (a : Nat) (l : Table) (e p : Int),
      extendPowerLoop b l e p (a + c) =
        extendPowerLoop b (extendPowerLoop b l e p a).1
          (extendPowerLoop b l e p a).2.1 (extendPowerLoop b l e p a).2.2 c := by
  intro a
  induction a with
  | zero => intro l e p; rw [Nat.zero_add]; rfl
  | succ a ih =>
    intro l e p
    rw [Nat.succ_add]
    simp only [extendPowerLoop]
    exact ih _ _ _

theorem extendPowerLoop_state (b : Int) :
    ∀ (n : Nat) (l : Table) (e p : Int),
      (extendPowerLoop b l e p n).2 = (e + n, p * b ^ n) := by
  intro n
  induction n with
  | zero => intro l e p; simp [extendPowerLoop]
  | succ n ih =>
    intro l e p
    simp only [extendPowerLoop]
    rw [ih]
    simp only [Prod.mk.injEq]
    constructor
    · push_cast; ring
    · ring

theorem tableN_succ (b : Int) (n : Nat) :
    tableN b (n + 1) =
      (init_next_power (tableN b n) ((n : Int) + 1) (b ^ (n + 1))).1 := by
  unfold tableN
  rw [extendPowerLoop_append b 1 n, extendPowerLoop_state]
  simp only [extendPowerLoop]
  have h1 : (0 : Int) + (n : Int) + 1 = (n : Int) + 1 := by ring
  have h2 : (1 : Int) * b ^ n * b = b ^ (n + 1) := by ring
  rw [h1, h2]

theorem tableN_length (b : Int) (hb : 2 ≤ b) (n : Nat) :
    (tableN b n).length = bit_length (b ^ n) + 1 := by
  induction n with
  | zero =>
    show ([none, some (0, 1)] : Table).length = bit_length (b ^ 0) + 1
    rw [pow_zero]
    simp [bit_length, Nat.size_one]
  | succ n ih =>
    rw [tableN_succ]
    unfold init_next_power
    simp only [List.length_append, List.length_replicate]
    have := bit_length_pow_lt_succ b hb n
    omega

theorem tableN_entry (b : Int) (hb : 2 ≤ b) (n : Nat) :
    ∀ i : Nat, 1 ≤ i → i ≤ bit_length (b ^ n) →
      ∃ e : Nat, e ≤ n ∧ (tableN b n)[i]? = some (some ((e : Int), b ^ e)) ∧
        i ≤ bit_length (b ^ e) ∧ ∀ j : Nat, j < e → bit_length (b ^ j) < i := by
  induction n with
  | zero =>
    intro i h1 h2
    have hbl : bit_length ((b : Int) ^ 0) = 1 := by
      rw [pow_zero]; simp [bit_length, Nat.size_one]
    have hi : i = 1 := by omega
    subst hi
    refine ⟨0, le_refl 0, ?_, ?_, by omega⟩
    · show (tableN b 0)[1]? = some (some (((0 : Nat) : Int), b ^ 0))
      rw [pow_zero]
      rfl
    · omega
  | succ n ih =>
    intro i h1 h2
    rw [tableN_succ]
    unfold init_next_power
    by_cases hc : i ≤ bit_length (b ^ n)
    · obtain ⟨e, he, hget, hle, hmin⟩ := ih i h1 hc
      refine ⟨e, by omega, ?_, hle, hmin⟩
      rw [List.getElem?_append_left, hget]
      rw [tableN_length b hb n]
      omega
    · have hlt := bit_length_pow_lt_succ b hb n
      refine ⟨n + 1, le_refl _, ?_, h2, ?_⟩
      · rw [List.getElem?_append_right (by rw [tableN_length b hb n]; omega)]
        rw [tableN_length b hb n]
        rw [List.getElem?_replicate_of_lt (by omega)]
        push_cast
        rfl
      · intro j hj
        have hj2 : j ≤ n := by omega
        have := bit_length_pow_mono b hb hj2
        omega

theorem tableN_last_entry (b : Int) (hb : 2 ≤ b) (n : Nat) :
    (tableN b n).getLast? = some (some ((n : Int), b ^ n)) := by
  rw [List.getLast?_eq_getElem?, tableN_length b hb n, Nat.add_sub_cancel]
  obtain ⟨e, he, hget, hle, hmin⟩ :=
    tableN_entry b hb n (bit_length (b ^ n)) (bit_length_pow_pos b hb n) (le_refl _)
  have hen : e = n := by
    by_contra hne
    have hlt : e < n := lt_of_le_of_ne he hne
    have := bit_length_pow_strictMono b hb hlt
    omega
  subst hen
  exact hget

theorem tableN_prefix (b : Int) {m n : Nat} (h : m ≤ n) :
    tableN b m <+: tableN b n := by
  induction n with
  | zero =>
    have hm : m = 0 := by omega
    subst hm; exact List.prefix_refl _
  | succ n ih =>
    rcases Nat.lt_or_ge m (n + 1) with h1 | h2
    · refine (ih (by omega)).trans ?_
      rw [tableN_succ]
      unfold init_next_power
      exact List.prefix_append _ _
    · have hm : m = n + 1 := by omega
      subst hm; exact List.prefix_refl _

theorem prefix_getElem? {α : Type} {l₁ l₂ : List α} (h : l₁ <+: l₂) {i : Nat} {x : α}
    (hx : l₁[i]? = some x) : l₂[i]? = some x := by
  obtain ⟨s, rfl⟩ := h
  have hi : i < l₁.length := by
    by_contra hc
    rw [List.getElem?_eq_none (by omega)] at hx
    exact Option.noConfusion hx
  rw [List.getElem?_append_left hi]
  exact hx

theorem extendPowerLoop_tableN (b : Int) :
    ∀ (c m : Nat),
      extendPowerLoop b (tableN b m) ((m : Int)) (b ^ m) c
        = (tableN b (m + c), ((m + c : Nat) : Int), b ^ (m + c)) := by
  intro c
  induction c with
  | zero => intro m; simp [extendPowerLoop]
  | succ c ih =>
    intro m
    simp only [extendPowerLoop]
    have h2 : b ^ m * b = b ^ (m + 1) := by rw [pow_succ]
    rw [h2, ← tableN_succ]
    have h1 : (m : Int) + 1 = ((m + 1 : Nat) : Int) := by push_cast; ring
    rw [h1]
    have h3 : m + (c + 1) = (m + 1) + c := by omega
    rw [h3]
    exact ih (m + 1)

end Intlog

namespace Intlog

/-! ### The registry invariant and the extension functions -/

/-- Every table present in the registry is the canonical table of a base ≥ 2. -/
def GoodLut (lut : Lut) : Prop :=
  ∀ b t, lut b = some t → 2 ≤ b ∧ ∃ n, t = tableN b n

theorem goodLut_empty : GoodLut emptyLut := by
  intro b t h
  exact Option.noConfusion h

theorem goodLut_insert {lut : Lut} (hg : GoodLut lut) {b : Int} (hb : 2 ≤ b) (n : Nat) :
    GoodLut (lutInsert lut b (tableN b n)) := by
  intro x t h
  unfold lutInsert at h
  by_cases hx : x = b
  · subst hx
    rw [if_pos rfl] at h
    injection h with h
    exact ⟨hb, n, h.symm⟩
  · rw [if_neg hx] at h
    exact hg x t h

theorem lutInsert_twice (lut : Lut) (b : Int) (t t' : Table) :
    lutInsert (lutInsert lut b t) b t' = lutInsert lut b t' := by
  funext x
  unfold lutInsert
  by_cases hx : x = b <;> simp [hx]

theorem init_base_ok {lut : Lut} {b : Int} (hb : 2 ≤ b) {m : Nat}
    (hlut : lut b = some (tableN b m) ∨ (lut b = none ∧ m = 0)) :
    init_base (.int b) lut
      = .ok (b, tableN b m, ((m : Int)), b ^ m, lutInsert lut b (tableN b m)) := by
  have hlim : (lut b).getD [none, some (0, 1)] = tableN b m := by
    rcases hlut with h | ⟨h, hm⟩
    · rw [h]; rfl
    · subst hm; rw [h]; rfl
  simp only [init_base]
  rw [if_neg (by omega : ¬ b ≤ 1), hlim, tableN_last_entry b hb m]

theorem extendBitlenLoop_spec (b : Int) (hb : 2 ≤ b) (maxB : Int) :
    ∀ (fuel : Nat) (m : Nat), (maxB - (bit_length (b ^ m) : Int)).toNat ≤ fuel →
      ∃ m' : Nat, m ≤ m' ∧
        extendBitlenLoop b maxB (tableN b m) ((m : Int)) (b ^ m) (bit_length (b ^ m)) fuel
          = (tableN b m', ((m' : Int)), b ^ m') ∧
        maxB ≤ (bit_length (b ^ m') : Int) ∧
        ∀ k : Nat, m ≤ k → k < m' → ((bit_length (b ^ k) : Int)) < maxB := by
  intro fuel
  induction fuel with
  | zero =>
    intro m hfuel
    exact ⟨m, le_refl m, rfl, by omega, by omega⟩
  | succ fuel ih =>
    intro m hfuel
    by_cases hguard : ((bit_length (b ^ m) : Nat) : Int) < maxB
    · have hble := bit_length_pow_lt_succ b hb m
      obtain ⟨m', hm', heq, hmax, hmin⟩ := ih (m + 1) (by omega)
      refine ⟨m', by omega, ?_, hmax, ?_⟩
      · simp only [extendBitlenLoop]
        rw [if_pos hguard]
        have h2 : b ^ m * b = b ^ (m + 1) := by rw [pow_succ]
        rw [h2, ← tableN_succ]
        have h1 : (m : Int) + 1 = ((m + 1 : Nat) : Int) := by push_cast; ring
        rw [h1]
        simp only [init_next_power]
        exact heq
      · intro k hk1 hk2
        by_cases hkm : k = m
        · subst hkm; exact hguard
        · exact hmin k (by omega) hk2
    · refine ⟨m, le_refl m, ?_, by omega, by omega⟩
      simp only [extendBitlenLoop]
      rw [if_neg hguard]

theorem extend_bitlen_ok {lut : Lut} {b : Int} (hb : 2 ≤ b) {m : Nat}
    (hlut : lut b = some (tableN b m) ∨ (lut b = none ∧ m = 0)) (maxB : Int) :
    ∃ m' : Nat, m ≤ m' ∧
      extend_fast_range_to_bitlen maxB (.int b) lut
        = (.ok (((m' : Int)), b ^ m'), lutInsert lut b (tableN b m')) ∧
      maxB ≤ (bit_length (b ^ m') : Int) ∧
      ∀ k : Nat, m ≤ k → k < m' → ((bit_length (b ^ k) : Int)) < maxB := by
  have hlen : (tableN b m).length - 1 = bit_length (b ^ m) := by
    rw [tableN_length b hb m]
    omega
  obtain ⟨m', h1, heq, h2, h3⟩ :=
    extendBitlenLoop_spec b hb maxB ((maxB - (bit_length (b ^ m) : Int)).toNat) m (le_refl _)
  refine ⟨m', h1, ?_, h2, h3⟩
  unfold extend_fast_range_to_bitlen
  rw [init_base_ok hb hlut]
  simp only [hlen, heq, lutInsert_twice]

theorem extend_power_ok {lut : Lut} {b : Int} (hb : 2 ≤ b) {m : Nat}
    (hlut : lut b = some (tableN b m) ∨ (lut b = none ∧ m = 0)) (maxE : Int) :
    extend_fast_range_to_power maxE (.int b) lut
      = (.ok ((((m + (maxE - (m : Int)).toNat : Nat) : Int)),
              b ^ (m + (maxE - (m : Int)).toNat)),
         lutInsert lut b (tableN b (m + (maxE - (m : Int)).toNat))) := by
  unfold extend_fast_range_to_power
  rw [init_base_ok hb hlut]
  simp only [extendPowerLoop_tableN, lutInsert_twice]

/-! ### Checkpoints fetched by queries -/

/-- The property of the checkpoint exponent a query for bit length `i` obtains:
`b ^ e` is the smallest power of `b` whose bit length is at least `i`. -/
def CkptAt (b : Int) (i e : Nat) : Prop :=
  i ≤ bit_length (b ^ e) ∧ ∀ j : Nat, j < e → bit_length (b ^ j) < i

theorem ckptAt_unique {b : Int} {i e e' : Nat} (h : CkptAt b i e) (h' : CkptAt b i e') :
    e = e' := by
  by_contra hne
  rcases Nat.lt_or_ge e e' with hlt | hge
  · have h1 := h'.2 e hlt
    have h2 := h.1
    omega
  · have hlt : e' < e := by omega
    have h1 := h.2 e' hlt
    have h2 := h'.1
    omega

theorem lookup_or_extend_ok {lut : Lut} (hg : GoodLut lut) {b : Int} (hb : 2 ≤ b)
    {i : Nat} (hi : 1 ≤ i) :
    ∃ (e : Nat) (lut' : Lut),
      lookup_or_extend (.int b) lut i = (.ok ((e : Int), b ^ e), lut') ∧
      CkptAt b i e ∧ GoodLut lut' ∧ (∀ x, x ≠ b → lut' x = lut x) := by
  cases hcase : lut b with
  | none =>
    obtain ⟨m', h1, heq, h2, h3⟩ := extend_bitlen_ok hb (Or.inr ⟨hcase, rfl⟩) (i : Int)
    refine ⟨m', lutInsert lut b (tableN b m'), ?_, ⟨?_, ?_⟩, goodLut_insert hg hb m', ?_⟩
    · simp only [lookup_or_extend, lutFind, hcase, heq]
    · exact_mod_cast h2
    · intro j hj
      have := h3 j (Nat.zero_le j) hj
      exact_mod_cast this
    · intro x hx
      unfold lutInsert
      rw [if_neg hx]
  | some t =>
    obtain ⟨hb2, n, rfl⟩ := hg b t hcase
    by_cases hcov : i ≤ bit_length (b ^ n)
    · obtain ⟨e, he, hget, hle, hmin⟩ := tableN_entry b hb n i hi hcov
      refine ⟨e, lut, ?_, ⟨hle, hmin⟩, hg, fun x _ => rfl⟩
      simp only [lookup_or_extend, lutFind, hcase, hget]
    · have hnone : (tableN b n)[i]? = none := by
        apply List.getElem?_eq_none
        rw [tableN_length b hb n]
        omega
      obtain ⟨m', h1, heq, h2, h3⟩ := extend_bitlen_ok hb (Or.inl hcase) (i : Int)
      refine ⟨m', lutInsert lut b (tableN b m'), ?_, ⟨?_, ?_⟩, goodLut_insert hg hb m', ?_⟩
      · simp only [lookup_or_extend, lutFind, hcase, hnone, heq]
      · exact_mod_cast h2
      · intro j hj
        rcases Nat.lt_or_ge j n with hjn | hjn
        · have hmono := bit_length_pow_mono b hb (le_of_lt hjn)
          omega
        · have := h3 j hjn hj
          exact_mod_cast this
      · intro x hx
        unfold lutInsert
        rw [if_neg hx]

end Intlog

namespace Intlog

/-! ### Checkpoint inequalities -/

theorem bit_length_pos {v : Int} (hv : 1 ≤ v) : 1 ≤ bit_length v :=
  Nat.size_pos.mpr (by omega)

/-- A checkpoint with an exponent ≥ 1 sits strictly above the previous power. -/
theorem ckpt_low {b v : Int} (hb : 2 ≤ b) (hv : 1 ≤ v) {e : Nat}
    (hc : CkptAt b (bit_length v) e) (he : 1 ≤ e) : b ^ (e - 1) < v := by
  have h1 : bit_length (b ^ (e - 1)) < bit_length v := hc.2 (e - 1) (by omega)
  have h2 : b ^ (e - 1) < 2 ^ (bit_length v - 1) :=
    pow_lt_of_bit_length_lt b hb (bit_length_pos hv) h1
  have h3 : (2 : Int) ^ (bit_length v - 1) ≤ v := two_pow_pred_le v hv
  exact lt_of_lt_of_le h2 h3

/-- The value is below base times the checkpoint power. -/
theorem ckpt_high {b v : Int} (hb : 2 ≤ b) (hv : 1 ≤ v) {e : Nat}
    (hc : CkptAt b (bit_length v) e) : v < b * b ^ e := by
  have h1 : 2 ^ (bit_length v - 1) ≤ b ^ e :=
    two_pow_le_of_le_bit_length b hb (bit_length_pos hv) hc.1
  have h2 : v < 2 ^ bit_length v := lt_two_pow_bit_length v (by omega)
  have h3 : (2 : Int) ^ bit_length v = 2 * 2 ^ (bit_length v - 1) := by
    rw [← pow_succ']
    congr 1
    have := bit_length_pos hv
    omega
  have hp : (0 : Int) < b ^ e := pow_pos (by omega) e
  calc v < 2 ^ bit_length v := h2
    _ = 2 * 2 ^ (bit_length v - 1) := h3
    _ ≤ 2 * b ^ e := by linarith
    _ ≤ b * b ^ e := by nlinarith

/-! ### The canonical answers of the four rounding modes -/

/-- `K` is the answer of a gt-style query: the least exponent whose power exceeds `v`. -/
def GtSpec (b v : Int) (K : Nat) : Prop :=
  v < b ^ K ∧ ∀ j : Nat, j < K → b ^ j ≤ v

/-- `K` is the answer of a ge-style query: the least exponent whose power reaches `v`. -/
def GeSpec (b v : Int) (K : Nat) : Prop :=
  v ≤ b ^ K ∧ ∀ j : Nat, j < K → b ^ j < v

theorem gtSpec_unique {b v : Int} {r s : Nat} (h : GtSpec b v r) (h' : GtSpec b v s) :
    r = s := by
  rcases Nat.lt_trichotomy r s with hlt | heq | hgt
  · have h1 := h'.2 r hlt
    have h2 := h.1
    linarith
  · exact heq
  · have h1 := h.2 s hgt
    have h2 := h'.1
    linarith

theorem geSpec_unique {b v : Int} {r s : Nat} (h : GeSpec b v r) (h' : GeSpec b v s) :
    r = s := by
  rcases Nat.lt_trichotomy r s with hlt | heq | hgt
  · have h1 := h'.2 r hlt
    have h2 := h.1
    linarith
  · exact heq
  · have h1 := h.2 s hgt
    have h2 := h'.1
    linarith

theorem gtSpec_pos {b v : Int} (hv : 1 ≤ v) {K : Nat} (h : GtSpec b v K) : 1 ≤ K := by
  by_contra h0
  have hK : K = 0 := by omega
  subst hK
  have := h.1
  rw [pow_zero] at this
  omega

/-- The boundary comparison of a gt query turns a checkpoint into the gt answer. -/
theorem ckpt_gt_formula {b v : Int} (hb : 2 ≤ b) (hv : 1 ≤ v) {e : Nat}
    (hc : CkptAt b (bit_length v) e) :
    GtSpec b v (if v ≥ b ^ e then e + 1 else e) := by
  by_cases hcmp : v ≥ b ^ e
  · rw [if_pos hcmp]
    constructor
    · calc v < b * b ^ e := ckpt_high hb hv hc
        _ = b ^ (e + 1) := by ring
    · intro j hj
      calc b ^ j ≤ b ^ e := pow_le_pow_right₀ (by omega) (by omega)
        _ ≤ v := hcmp
  · rw [if_neg hcmp]
    constructor
    · exact lt_of_not_ge hcmp
    · intro j hj
      have he : 1 ≤ e := by omega
      calc b ^ j ≤ b ^ (e - 1) := pow_le_pow_right₀ (by omega) (by omega)
        _ ≤ v := le_of_lt (ckpt_low hb hv hc he)

/-- The boundary comparison of a ge query turns a checkpoint into the ge answer. -/
theorem ckpt_ge_formula {b v : Int} (hb : 2 ≤ b) (hv : 1 ≤ v) {e : Nat}
    (hc : CkptAt b (bit_length v) e) :
    GeSpec b v (if v > b ^ e then e + 1 else e) := by
  by_cases hcmp : v > b ^ e
  · rw [if_pos hcmp]
    constructor
    · have := ckpt_high hb hv hc
      have h2 : b * b ^ e = b ^ (e + 1) := by ring
      linarith
    · intro j hj
      calc b ^ j ≤ b ^ e := pow_le_pow_right₀ (by omega) (by omega)
        _ < v := hcmp
  · rw [if_neg hcmp]
    constructor
    · exact le_of_not_gt hcmp
    · intro j hj
      have he : 1 ≤ e := by omega
      calc b ^ j ≤ b ^ (e - 1) := pow_le_pow_right₀ (by omega) (by omega)
        _ < v := ckpt_low hb hv hc he

/-! ### Rational bounds from the canonical answers -/

theorem gtSpec_q_bounds {b v : Int} (hb : 2 ≤ b) (hv : 1 ≤ v) {K : Nat}
    (h : GtSpec b v K) :
    (b : ℚ) ^ ((K : ℤ) - 1) ≤ (v : ℚ) ∧ (v : ℚ) < (b : ℚ) ^ (K : ℤ) := by
  have hK := gtSpec_pos hv h
  constructor
  · have h1 : b ^ (K - 1) ≤ v := h.2 (K - 1) (by omega)
    have h2 : ((K : ℤ) - 1) = ((K - 1 : Nat) : ℤ) := by omega
    rw [h2, zpow_natCast]
    exact_mod_cast h1
  · rw [zpow_natCast]
    exact_mod_cast h.1

theorem geSpec_q_bounds {b v : Int} (hb : 2 ≤ b) (hv : 1 ≤ v) {K : Nat}
    (h : GeSpec b v K) :
    (b : ℚ) ^ ((K : ℤ) - 1) < (v : ℚ) ∧ (v : ℚ) ≤ (b : ℚ) ^ (K : ℤ) := by
  constructor
  · by_cases hK : 1 ≤ K
    · have h1 : b ^ (K - 1) < v := h.2 (K - 1) (by omega)
      have h2 : ((K : ℤ) - 1) = ((K - 1 : Nat) : ℤ) := by omega
      rw [h2, zpow_natCast]
      exact_mod_cast h1
    · have hK0 : K = 0 := by omega
      subst hK0
      have hb1 : (1 : ℚ) < (b : ℚ) := by exact_mod_cast (by omega : (1 : Int) < b)
      have hinv : (b : ℚ)⁻¹ < 1 := inv_lt_one_of_one_lt₀ hb1
      have hv1 : (1 : ℚ) ≤ (v : ℚ) := by exact_mod_cast hv
      have he : ((0 : Nat) : ℤ) - 1 = (-1 : ℤ) := by omega
      rw [he, zpow_neg_one]
      linarith
  · rw [zpow_natCast]
    exact_mod_cast h.1

/-! ### The slow loops -/

theorem slowLogLoop_le_spec {b v : Int} (hb : 2 ≤ b) :
    ∀ (fuel k : Nat), v < b ^ (k + fuel) →
      ∃ K : Nat, k ≤ K ∧
        slowLogLoop (fun p v => decide (p ≤ v)) b v ((k : Int)) (b ^ k) fuel
          = (((K : Int)), b ^ K) ∧
        v < b ^ K ∧ ∀ j : Nat, k ≤ j → j < K → b ^ j ≤ v := by
  intro fuel
  induction fuel with
  | zero =>
    intro k hk
    exact ⟨k, le_refl k, rfl, hk, by omega⟩
  | succ fuel ih =>
    intro k hk
    by_cases hg : b ^ k ≤ v
    · have hk2 : v < b ^ ((k + 1) + fuel) := by
        have harith : (k + 1) + fuel = k + (fuel + 1) := by omega
        rw [harith]
        exact hk
      obtain ⟨K, h1, heq, h2, h3⟩ := ih (k + 1) hk2
      refine ⟨K, by omega, ?_, h2, ?_⟩
      · simp only [slowLogLoop]
        rw [if_pos (decide_eq_true hg)]
        have e1 : (k : Int) + 1 = ((k + 1 : Nat) : Int) := by push_cast; ring
        have e2 : b ^ k * b = b ^ (k + 1) := by rw [pow_succ]
        rw [e1, e2]
        exact heq
      · intro j hj1 hj2
        by_cases hjk : j = k
        · subst hjk; exact hg
        · exact h3 j (by omega) hj2
    · refine ⟨k, le_refl k, ?_, lt_of_not_ge hg, by omega⟩
      simp only [slowLogLoop]
      rw [if_neg (by simp [hg])]

theorem slowLogLoop_lt_spec {b v : Int} (hb : 2 ≤ b) :
    ∀ (fuel k : Nat), v < b ^ (k + fuel) →
      ∃ K : Nat, k ≤ K ∧
        slowLogLoop (fun p v => decide (p < v)) b v ((k : Int)) (b ^ k) fuel
          = (((K : Int)), b ^ K) ∧
        v ≤ b ^ K ∧ ∀ j : Nat, k ≤ j → j < K → b ^ j < v := by
  intro fuel
  induction fuel with
  | zero =>
    intro k hk
    exact ⟨k, le_refl k, rfl, le_of_lt hk, by omega⟩
  | succ fuel ih =>
    intro k hk
    by_cases hg : b ^ k < v
    · have hk2 : v < b ^ ((k + 1) + fuel) := by
        have harith : (k + 1) + fuel = k + (fuel + 1) := by omega
        rw [harith]
        exact hk
      obtain ⟨K, h1, heq, h2, h3⟩ := ih (k + 1) hk2
      refine ⟨K, by omega, ?_, h2, ?_⟩
      · simp only [slowLogLoop]
        rw [if_pos (decide_eq_true hg)]
        have e1 : (k : Int) + 1 = ((k + 1 : Nat) : Int) := by push_cast; ring
        have e2 : b ^ k * b = b ^ (k + 1) := by rw [pow_succ]
        rw [e1, e2]
        exact heq
      · intro j hj1 hj2
        by_cases hjk : j = k
        · subst hjk; exact hg
        · exact h3 j (by omega) hj2
    · refine ⟨k, le_refl k, ?_, le_of_not_gt hg, by omega⟩
      simp only [slowLogLoop]
      rw [if_neg (by simp [hg])]

theorem slowPowLoop_eq (cmp : Int → Int → Bool) (b v : Int) :
    ∀ (fuel : Nat) (e p : Int),
      slowPowLoop cmp b v p fuel = (slowLogLoop cmp b v e p fuel).2 := by
  intro fuel
  induction fuel with
  | zero => intro e p; rfl
  | succ fuel ih =>
    intro e p
    simp only [slowPowLoop, slowLogLoop]
    by_cases h : cmp p v = true
    · rw [if_pos h, if_pos h]
      exact ih _ _
    · rw [if_neg h, if_neg h]

theorem slowFuel_adequate {b v : Int} (hb : 2 ≤ b) (hv : 1 ≤ v) :
    v < b ^ (0 + slowFuel v) := by
  rw [Nat.zero_add]
  have h1 : v < 2 ^ bit_length v := lt_two_pow_bit_length v (by omega)
  have h2 : (2 : Int) ^ bit_length v ≤ 2 ^ slowFuel v :=
    pow_le_pow_right₀ (by norm_num) (by unfold slowFuel; omega)
  have h3 : (2 : Int) ^ slowFuel v ≤ b ^ slowFuel v :=
    pow_le_pow_left₀ (by norm_num) hb _
  linarith

end Intlog

namespace Intlog

/-! ### What each query function returns -/

theorem pow_fdiv_base {b : Int} (hb : 2 ≤ b) {e : Nat} (he : 1 ≤ e) :
    Int.fdiv (b ^ e) b = b ^ (e - 1) := by
  have h : b ^ e = b ^ (e - 1) * b := by
    rw [← pow_succ]
    congr 1
    omega
  rw [h, Int.mul_fdiv_cancel _ (by omega)]

theorem one_fdiv_base {b : Int} (hb : 2 ≤ b) : Int.fdiv 1 b = 0 := by
  rw [Int.fdiv_eq_ediv _ (by omega)]
  exact Int.ediv_eq_zero_of_lt (by omega) (by omega)

theorem gt_log_ok {lut : Lut} (hg : GoodLut lut) {b v : Int} (hb : 2 ≤ b) (hv : 1 ≤ v) :
    ∃ (K : Nat) (lut' : Lut),
      gt_log v (.int b) lut = (.ok ((K : Int)), lut') ∧ GtSpec b v K ∧
      GoodLut lut' ∧ (∀ x, x ≠ b → lut' x = lut x) := by
  obtain ⟨e, lut', heq, hc, hg', hfr⟩ := lookup_or_extend_ok hg hb (bit_length_pos hv)
  have hv0 : ¬ v ≤ 0 := by omega
  refine ⟨if v ≥ b ^ e then e + 1 else e, lut', ?_, ckpt_gt_formula hb hv hc, hg', hfr⟩
  simp only [gt_log, if_neg hv0, heq]
  by_cases hcmp : v ≥ b ^ e
  · simp only [if_pos hcmp]
    have h : ((e : Int)) + 1 = ((e + 1 : Nat) : Int) := by push_cast; ring
    rw [h]
  · simp only [if_neg hcmp]
    rw [add_zero]

theorem ge_log_ok {lut : Lut} (hg : GoodLut lut) {b v : Int} (hb : 2 ≤ b) (hv : 1 ≤ v) :
    ∃ (K : Nat) (lut' : Lut),
      ge_log v (.int b) lut = (.ok ((K : Int)), lut') ∧ GeSpec b v K ∧
      GoodLut lut' ∧ (∀ x, x ≠ b → lut' x = lut x) := by
  obtain ⟨e, lut', heq, hc, hg', hfr⟩ := lookup_or_extend_ok hg hb (bit_length_pos hv)
  have hv0 : ¬ v ≤ 0 := by omega
  refine ⟨if v > b ^ e then e + 1 else e, lut', ?_, ckpt_ge_formula hb hv hc, hg', hfr⟩
  simp only [ge_log, if_neg hv0, heq]
  by_cases hcmp : v > b ^ e
  · simp only [if_pos hcmp]
    have h : ((e : Int)) + 1 = ((e + 1 : Nat) : Int) := by push_cast; ring
    rw [h]
  · simp only [if_neg hcmp]
    rw [add_zero]

theorem lt_log_ok {lut : Lut} (hg : GoodLut lut) {b v : Int} (hb : 2 ≤ b) (hv : 1 ≤ v) :
    ∃ (K : Nat) (lut' : Lut),
      lt_log v (.int b) lut = (.ok ((K : Int) - 1), lut') ∧ GeSpec b v K ∧
      GoodLut lut' ∧ (∀ x, x ≠ b → lut' x = lut x) := by
  obtain ⟨e, lut', heq, hc, hg', hfr⟩ := lookup_or_extend_ok hg hb (bit_length_pos hv)
  have hv0 : ¬ v ≤ 0 := by omega
  refine ⟨if v > b ^ e then e + 1 else e, lut', ?_, ckpt_ge_formula hb hv hc, hg', hfr⟩
  simp only [lt_log, if_neg hv0, heq]
  by_cases hcmp : v ≤ b ^ e
  · simp only [if_pos hcmp, if_neg (not_lt.mpr hcmp)]
  · simp only [if_neg hcmp, if_pos (lt_of_not_ge hcmp)]
    have h : ((e + 1 : Nat) : Int) - 1 = ((e : Int)) - 0 := by push_cast; ring
    rw [h]

theorem le_log_ok {lut : Lut} (hg : GoodLut lut) {b v : Int} (hb : 2 ≤ b) (hv : 1 ≤ v) :
    ∃ (K : Nat) (lut' : Lut),
      le_log v (.int b) lut = (.ok ((K : Int) - 1), lut') ∧ GtSpec b v K ∧
      GoodLut lut' ∧ (∀ x, x ≠ b → lut' x = lut x) := by
  obtain ⟨e, lut', heq, hc, hg', hfr⟩ := lookup_or_extend_ok hg hb (bit_length_pos hv)
  have hv0 : ¬ v ≤ 0 := by omega
  refine ⟨if v ≥ b ^ e then e + 1 else e, lut', ?_, ckpt_gt_formula hb hv hc, hg', hfr⟩
  simp only [le_log, if_neg hv0, heq]
  by_cases hcmp : v < b ^ e
  · simp only [if_pos hcmp, if_neg (not_le.mpr hcmp)]
  · simp only [if_neg hcmp, if_pos (le_of_not_lt hcmp)]
    have h : ((e + 1 : Nat) : Int) - 1 = ((e : Int)) - 0 := by push_cast; ring
    rw [h]

theorem gt_pow_ok {lut : Lut} (hg : GoodLut lut) {b v : Int} (hb : 2 ≤ b) (hv : 1 ≤ v) :
    ∃ (K : Nat) (lut' : Lut),
      gt_pow v (.int b) lut = (.ok (.int (b ^ K)), lut') ∧ GtSpec b v K ∧
      GoodLut lut' ∧ (∀ x, x ≠ b → lut' x = lut x) := by
  obtain ⟨e, lut', heq, hc, hg', hfr⟩ := lookup_or_extend_ok hg hb (bit_length_pos hv)
  have hv0 : ¬ v ≤ 0 := by omega
  refine ⟨if v ≥ b ^ e then e + 1 else e, lut', ?_, ckpt_gt_formula hb hv hc, hg', hfr⟩
  simp only [gt_pow, if_neg hv0, heq]
  by_cases hcmp : v ≥ b ^ e
  · simp only [if_pos hcmp, pyMul]
    rw [← pow_succ]
  · simp only [if_neg hcmp]

theorem ge_pow_ok {lut : Lut} (hg : GoodLut lut) {b v : Int} (hb : 2 ≤ b) (hv : 1 ≤ v) :
    ∃ (K : Nat) (lut' : Lut),
      ge_pow v (.int b) lut = (.ok (.int (b ^ K)), lut') ∧ GeSpec b v K ∧
      GoodLut lut' ∧ (∀ x, x ≠ b → lut' x = lut x) := by
  obtain ⟨e, lut', heq, hc, hg', hfr⟩ := lookup_or_extend_ok hg hb (bit_length_pos hv)
  have hv0 : ¬ v ≤ 0 := by omega
  refine ⟨if v > b ^ e then e + 1 else e, lut', ?_, ckpt_ge_formula hb hv hc, hg', hfr⟩
  simp only [ge_pow, if_neg hv0, heq]
  by_cases hcmp : v > b ^ e
  · simp only [if_pos hcmp, pyMul]
    rw [← pow_succ]
  · simp only [if_neg hcmp]

theorem lt_pow_ok {lut : Lut} (hg : GoodLut lut) {b v : Int} (hb : 2 ≤ b) (hv : 1 ≤ v) :
    ∃ (K : Nat) (lut' : Lut),
      lt_pow v (.int b) lut = (.ok (.int (if K = 0 then 0 else b ^ (K - 1))), lut') ∧
      GeSpec b v K ∧ GoodLut lut' ∧ (∀ x, x ≠ b → lut' x = lut x) := by
  obtain ⟨e, lut', heq, hc, hg', hfr⟩ := lookup_or_extend_ok hg hb (bit_length_pos hv)
  have hv0 : ¬ v ≤ 0 := by omega
  refine ⟨if v > b ^ e then e + 1 else e, lut', ?_, ckpt_ge_formula hb hv hc, hg', hfr⟩
  simp only [lt_pow, if_neg hv0, heq]
  by_cases hcmp : v ≤ b ^ e
  · simp only [if_pos hcmp, if_neg (not_lt.mpr hcmp), pyFloordiv]
    by_cases he : e = 0
    · subst he
      rw [pow_zero, one_fdiv_base hb]
      simp
    · simp only [if_neg he]
      rw [pow_fdiv_base hb (by omega)]
  · simp only [if_neg hcmp, if_pos (lt_of_not_ge hcmp), if_neg (by omega : ¬ e + 1 = 0)]
    have h : e + 1 - 1 = e := by omega
    rw [h]

theorem le_pow_ok {lut : Lut} (hg : GoodLut lut) {b v : Int} (hb : 2 ≤ b) (hv : 1 ≤ v) :
    ∃ (K : Nat) (lut' : Lut),
      le_pow v (.int b) lut = (.ok (.int (b ^ (K - 1))), lut') ∧ GtSpec b v K ∧
      GoodLut lut' ∧ (∀ x, x ≠ b → lut' x = lut x) := by
  obtain ⟨e, lut', heq, hc, hg', hfr⟩ := lookup_or_extend_ok hg hb (bit_length_pos hv)
  have hv0 : ¬ v ≤ 0 := by omega
  refine ⟨if v ≥ b ^ e then e + 1 else e, lut', ?_, ckpt_gt_formula hb hv hc, hg', hfr⟩
  simp only [le_pow, if_neg hv0, heq]
  by_cases hcmp : v < b ^ e
  · simp only [if_pos hcmp, if_neg (not_le.mpr hcmp), pyFloordiv]
    have he : 1 ≤ e := by
      by_contra he0
      have h0 : e = 0 := by omega
      subst h0
      rw [pow_zero] at hcmp
      omega
    rw [pow_fdiv_base hb he]
  · simp only [if_neg hcmp, if_pos (le_of_not_lt hcmp)]
    have h : e + 1 - 1 = e := by omega
    rw [h]

end Intlog

namespace Intlog

/-! ### The fast discipline under its coverage precondition -/

/-- The table for `b` has been extended so that index `i` is populated. -/
def Covers (lut : Lut) (b : Int) (i : Nat) : Prop :=
  ∃ t, lut b = some t ∧ i < t.length

theorem covers_elim {lut : Lut} (hg : GoodLut lut) {b : Int} (hb : 2 ≤ b) {v : Int}
    (hv : 1 ≤ v) (hcov : Covers lut b (bit_length v)) :
    ∃ (t : Table) (e : Nat), lut b = some t ∧
      t[bit_length v]? = some (some ((e : Int), b ^ e)) ∧ CkptAt b (bit_length v) e := by
  obtain ⟨t, hsome, hlen⟩ := hcov
  obtain ⟨hb2, n, rfl⟩ := hg b t hsome
  rw [tableN_length b hb n] at hlen
  obtain ⟨e, he, hget, hle, hmin⟩ :=
    tableN_entry b hb n _ (bit_length_pos hv) (by omega)
  exact ⟨tableN b n, e, hsome, hget, hle, hmin⟩

theorem fast_gt_log_ok {lut : Lut} (hg : GoodLut lut) {b v : Int} (hb : 2 ≤ b) (hv : 1 ≤ v)
    (hcov : Covers lut b (bit_length v)) :
    ∃ K : Nat, fast_gt_log v (.int b) lut = .ok ((K : Int)) ∧ GtSpec b v K := by
  obtain ⟨t, e, hsome, hget, hc⟩ := covers_elim hg hb hv hcov
  refine ⟨if v ≥ b ^ e then e + 1 else e, ?_, ckpt_gt_formula hb hv hc⟩
  simp only [fast_gt_log, lutFind, hsome, hget]
  by_cases hcmp : v ≥ b ^ e
  · simp only [if_pos hcmp]
    have h : ((e : Int)) + 1 = ((e + 1 : Nat) : Int) := by push_cast; ring
    rw [h]
  · simp only [if_neg hcmp]
    rw [add_zero]

theorem fast_ge_log_ok {lut : Lut} (hg : GoodLut lut) {b v : Int} (hb : 2 ≤ b) (hv : 1 ≤ v)
    (hcov : Covers lut b (bit_length v)) :
    ∃ K : Nat, fast_ge_log v (.int b) lut = .ok ((K : Int)) ∧ GeSpec b v K := by
  obtain ⟨t, e, hsome, hget, hc⟩ := covers_elim hg hb hv hcov
  refine ⟨if v > b ^ e then e + 1 else e, ?_, ckpt_ge_formula hb hv hc⟩
  simp only [fast_ge_log, lutFind, hsome, hget]
  by_cases hcmp : v > b ^ e
  · simp only [if_pos hcmp]
    have h : ((e : Int)) + 1 = ((e + 1 : Nat) : Int) := by push_cast; ring
    rw [h]
  · simp only [if_neg hcmp]
    rw [add_zero]

theorem fast_lt_log_ok {lut : Lut} (hg : GoodLut lut) {b v : Int} (hb : 2 ≤ b) (hv : 1 ≤ v)
    (hcov : Covers lut b (bit_length v)) :
    ∃ K : Nat, fast_lt_log v (.int b) lut = .ok ((K : Int) - 1) ∧ GeSpec b v K := by
  obtain ⟨t, e, hsome, hget, hc⟩ := covers_elim hg hb hv hcov
  refine ⟨if v > b ^ e then e + 1 else e, ?_, ckpt_ge_formula hb hv hc⟩
  simp only [fast_lt_log, lutFind, hsome, hget]
  by_cases hcmp : v ≤ b ^ e
  · simp only [if_pos hcmp, if_neg (not_lt.mpr hcmp)]
  · simp only [if_neg hcmp, if_pos (lt_of_not_ge hcmp)]
    have h : ((e + 1 : Nat) : Int) - 1 = ((e : Int)) - 0 := by push_cast; ring
    rw [h]

theorem fast_le_log_ok {lut : Lut} (hg : GoodLut lut) {b v : Int} (hb : 2 ≤ b) (hv : 1 ≤ v)
    (hcov : Covers lut b (bit_length v)) :
    ∃ K : Nat, fast_le_log v (.int b) lut = .ok ((K : Int) - 1) ∧ GtSpec b v K := by
  obtain ⟨t, e, hsome, hget, hc⟩ := covers_elim hg hb hv hcov
  refine ⟨if v ≥ b ^ e then e + 1 else e, ?_, ckpt_gt_formula hb hv hc⟩
  simp only [fast_le_log, lutFind, hsome, hget]
  by_cases hcmp : v < b ^ e
  · simp only [if_pos hcmp, if_neg (not_le.mpr hcmp)]
  · simp only [if_neg hcmp, if_pos (le_of_not_lt hcmp)]
    have h : ((e + 1 : Nat) : Int) - 1 = ((e : Int)) - 0 := by push_cast; ring
    rw [h]

theorem fast_gt_pow_ok {lut : Lut} (hg : GoodLut lut) {b v : Int} (hb : 2 ≤ b) (hv : 1 ≤ v)
    (hcov : Covers lut b (bit_length v)) :
    ∃ K : Nat, fast_gt_pow v (.int b) lut = .ok (.int (b ^ K)) ∧ GtSpec b v K := by
  obtain ⟨t, e, hsome, hget, hc⟩ := covers_elim hg hb hv hcov
  refine ⟨if v ≥ b ^ e then e + 1 else e, ?_, ckpt_gt_formula hb hv hc⟩
  simp only [fast_gt_pow, lutFind, hsome, hget]
  by_cases hcmp : v ≥ b ^ e
  · simp only [if_pos hcmp, pyMul]
    rw [← pow_succ]
  · simp only [if_neg hcmp]

theorem fast_ge_pow_ok {lut : Lut} (hg : GoodLut lut) {b v : Int} (hb : 2 ≤ b) (hv : 1 ≤ v)
    (hcov : Covers lut b (bit_length v)) :
    ∃ K : Nat, fast_ge_pow v (.int b) lut = .ok (.int (b ^ K)) ∧ GeSpec b v K := by
  obtain ⟨t, e, hsome, hget, hc⟩ := covers_elim hg hb hv hcov
  refine ⟨if v > b ^ e then e + 1 else e, ?_, ckpt_ge_formula hb hv hc⟩
  simp only [fast_ge_pow, lutFind, hsome, hget]
  by_cases hcmp : v > b ^ e
  · simp only [if_pos hcmp, pyMul]
    rw [← pow_succ]
  · simp only [if_neg hcmp]

theorem fast_lt_pow_ok {lut : Lut} (hg : GoodLut lut) {b v : Int} (hb : 2 ≤ b) (hv : 1 ≤ v)
    (hcov : Covers lut b (bit_length v)) :
    ∃ K : Nat, fast_lt_pow v (.int b) lut = .ok (.int (if K = 0 then 0 else b ^ (K - 1))) ∧
      GeSpec b v K := by
  obtain ⟨t, e, hsome, hget, hc⟩ := covers_elim hg hb hv hcov
  refine ⟨if v > b ^ e then e + 1 else e, ?_, ckpt_ge_formula hb hv hc⟩
  simp only [fast_lt_pow, lutFind, hsome, hget]
  by_cases hcmp : v ≤ b ^ e
  · simp only [if_pos hcmp, if_neg (not_lt.mpr hcmp), pyFloordiv]
    by_cases he : e = 0
    · subst he
      rw [pow_zero, one_fdiv_base hb]
      simp
    · simp only [if_neg he]
      rw [pow_fdiv_base hb (by omega)]
  · simp only [if_neg hcmp, if_pos (lt_of_not_ge hcmp), if_neg (by omega : ¬ e + 1 = 0)]
    have h : e + 1 - 1 = e := by omega
    rw [h]

theorem fast_le_pow_ok {lut : Lut} (hg : GoodLut lut) {b v : Int} (hb : 2 ≤ b) (hv : 1 ≤ v)
    (hcov : Covers lut b (bit_length v)) :
    ∃ K : Nat, fast_le_pow v (.int b) lut = .ok (.int (b ^ (K - 1))) ∧ GtSpec b v K := by
  obtain ⟨t, e, hsome, hget, hc⟩ := covers_elim hg hb hv hcov
  refine ⟨if v ≥ b ^ e then e + 1 else e, ?_, ckpt_gt_formula hb hv hc⟩
  simp only [fast_le_pow, lutFind, hsome, hget]
  by_cases hcmp : v < b ^ e
  · simp only [if_pos hcmp, if_neg (not_le.mpr hcmp), pyFloordiv]
    have he : 1 ≤ e := by
      by_contra he0
      have h0 : e = 0 := by omega
      subst h0
      rw [pow_zero] at hcmp
      omega
    rw [pow_fdiv_base hb he]
  · simp only [if_neg hcmp, if_pos (le_of_not_lt hcmp)]
    have h : e + 1 - 1 = e := by omega
    rw [h]

/-! ### The slow discipline -/

theorem slow_gt_log_ok {b v : Int} (hb : 2 ≤ b) (hv : 1 ≤ v) :
    ∃ K : Nat, slow_gt_log v b = .ok ((K : Int)) ∧ GtSpec b v K := by
  obtain ⟨K, h1, heq, h2, h3⟩ :=
    slowLogLoop_le_spec hb (slowFuel v) 0 (slowFuel_adequate hb hv)
  refine ⟨K, ?_, h2, fun j hj => h3 j (Nat.zero_le j) hj⟩
  unfold slow_gt_log
  rw [if_neg (by omega : ¬ v ≤ 0)]
  simp only [Nat.cast_zero, pow_zero] at heq
  rw [heq]

theorem slow_ge_log_ok {b v : Int} (hb : 2 ≤ b) (hv : 1 ≤ v) :
    ∃ K : Nat, slow_ge_log v b = .ok ((K : Int)) ∧ GeSpec b v K := by
  obtain ⟨K, h1, heq, h2, h3⟩ :=
    slowLogLoop_lt_spec hb (slowFuel v) 0 (slowFuel_adequate hb hv)
  refine ⟨K, ?_, h2, fun j hj => h3 j (Nat.zero_le j) hj⟩
  unfold slow_ge_log
  rw [if_neg (by omega : ¬ v ≤ 0)]
  simp only [Nat.cast_zero, pow_zero] at heq
  rw [heq]

theorem slow_lt_log_ok {b v : Int} (hb : 2 ≤ b) (hv : 1 ≤ v) :
    ∃ K : Nat, slow_lt_log v b = .ok ((K : Int) - 1) ∧ GeSpec b v K := by
  obtain ⟨K, h1, heq, h2, h3⟩ :=
    slowLogLoop_lt_spec hb (slowFuel v) 0 (slowFuel_adequate hb hv)
  refine ⟨K, ?_, h2, fun j hj => h3 j (Nat.zero_le j) hj⟩
  unfold slow_lt_log
  rw [if_neg (by omega : ¬ v ≤ 0)]
  simp only [Nat.cast_zero, pow_zero] at heq
  rw [heq]

theorem slow_le_log_ok {b v : Int} (hb : 2 ≤ b) (hv : 1 ≤ v) :
    ∃ K : Nat, slow_le_log v b = .ok ((K : Int) - 1) ∧ GtSpec b v K := by
  obtain ⟨K, h1, heq, h2, h3⟩ :=
    slowLogLoop_le_spec hb (slowFuel v) 0 (slowFuel_adequate hb hv)
  refine ⟨K, ?_, h2, fun j hj => h3 j (Nat.zero_le j) hj⟩
  unfold slow_le_log
  rw [if_neg (by omega : ¬ v ≤ 0)]
  simp only [Nat.cast_zero, pow_zero] at heq
  rw [heq]

theorem slow_gt_pow_ok {b v : Int} (hb : 2 ≤ b) (hv : 1 ≤ v) :
    ∃ K : Nat, slow_gt_pow v b = .ok (b ^ K) ∧ GtSpec b v K := by
  obtain ⟨K, h1, heq, h2, h3⟩ :=
    slowLogLoop_le_spec hb (slowFuel v) 0 (slowFuel_adequate hb hv)
  refine ⟨K, ?_, h2, fun j hj => h3 j (Nat.zero_le j) hj⟩
  unfold slow_gt_pow
  rw [if_neg (by omega : ¬ v ≤ 0)]
  rw [slowPowLoop_eq _ b v (slowFuel v) 0 1]
  simp only [Nat.cast_zero, pow_zero] at heq
  rw [heq]

theorem slow_ge_pow_ok {b v : Int} (hb : 2 ≤ b) (hv : 1 ≤ v) :
    ∃ K : Nat, slow_ge_pow v b = .ok (b ^ K) ∧ GeSpec b v K := by
  obtain ⟨K, h1, heq, h2, h3⟩ :=
    slowLogLoop_lt_spec hb (slowFuel v) 0 (slowFuel_adequate hb hv)
  refine ⟨K, ?_, h2, fun j hj => h3 j (Nat.zero_le j) hj⟩
  unfold slow_ge_pow
  rw [if_neg (by omega : ¬ v ≤ 0)]
  rw [slowPowLoop_eq _ b v (slowFuel v) 0 1]
  simp only [Nat.cast_zero, pow_zero] at heq
  rw [heq]

theorem slow_lt_pow_ok {b v : Int} (hb : 2 ≤ b) (hv : 1 ≤ v) :
    ∃ K : Nat, slow_lt_pow v b = .ok (if K = 0 then 0 else b ^ (K - 1)) ∧ GeSpec b v K := by
  obtain ⟨K, h1, heq, h2, h3⟩ :=
    slowLogLoop_lt_spec hb (slowFuel v) 0 (slowFuel_adequate hb hv)
  refine ⟨K, ?_, h2, fun j hj => h3 j (Nat.zero_le j) hj⟩
  unfold slow_lt_pow
  rw [if_neg (by omega : ¬ v ≤ 0)]
  rw [slowPowLoop_eq _ b v (slowFuel v) 0 1]
  simp only [Nat.cast_zero, pow_zero] at heq
  rw [heq]
  by_cases hK : K = 0
  · subst hK
    rw [pow_zero, one_fdiv_base hb]
    simp
  · rw [if_neg hK, pow_fdiv_base hb (by omega)]

theorem slow_le_pow_ok {b v : Int} (hb : 2 ≤ b) (hv : 1 ≤ v) :
    ∃ K : Nat, slow_le_pow v b = .ok (b ^ (K - 1)) ∧ GtSpec b v K := by
  obtain ⟨K, h1, heq, h2, h3⟩ :=
    slowLogLoop_le_spec hb (slowFuel v) 0 (slowFuel_adequate hb hv)
  have hspec : GtSpec b v K := ⟨h2, fun j hj => h3 j (Nat.zero_le j) hj⟩
  refine ⟨K, ?_, hspec⟩
  unfold slow_le_pow
  rw [if_neg (by omega : ¬ v ≤ 0)]
  rw [slowPowLoop_eq _ b v (slowFuel v) 0 1]
  simp only [Nat.cast_zero, pow_zero] at heq
  rw [heq]
  rw [pow_fdiv_base hb (gtSpec_pos hv hspec)]

end Intlog

namespace Intlog

/-! ### Evaluating bit lengths on concrete inputs

`Nat.size` is defined by well-founded recursion, so concrete values are obtained
from its order characterization rather than by kernel reduction. -/

theorem size_eval {n k : Nat} (hk : 1 ≤ k) (h1 : 2 ^ (k - 1) ≤ n) (h2 : n < 2 ^ k) :
    n.size = k := by
  have a := Nat.size_le.mpr h2
  have b := Nat.lt_size.mpr h1
  omega

theorem bit_length_eval {x : Int} {k : Nat} (hk : 1 ≤ k) (h1 : 2 ^ (k - 1) ≤ x.natAbs)
    (h2 : x.natAbs < 2 ^ k) : bit_length x = k :=
  size_eval hk h1 h2

/-! ### C1 -/

/-- C1: for every integer base ≥ 2, every integer value ≥ 1 and every well-formed
registry state, the four auto-extending logarithm functions succeed and their
results satisfy the documented double inequalities
(`gt`: `base^(e-1) ≤ value < base^e`; `ge`: `base^(e-1) < value ≤ base^e`;
`lt`: `base^e < value ≤ base^(e+1)`; `le`: `base^e ≤ value < base^(e+1)`),
with exponentiation taken in ℚ so that the exponent −1 arising at `value = 1`
is meaningful. -/
theorem auto_log_double_inequalities (lut : Lut) (hg : GoodLut lut) (b v : Int)
    (hb : 2 ≤ b) (hv : 1 ≤ v) :
    (∃ (e : Int) (lut₁ : Lut), gt_log v (.int b) lut = (.ok e, lut₁) ∧
      (b : ℚ) ^ (e - 1) ≤ (v : ℚ) ∧ (v : ℚ) < (b : ℚ) ^ e) ∧
    (∃ (e : Int) (lut₁ : Lut), ge_log v (.int b) lut = (.ok e, lut₁) ∧
      (b : ℚ) ^ (e - 1) < (v : ℚ) ∧ (v : ℚ) ≤ (b : ℚ) ^ e) ∧
    (∃ (e : Int) (lut₁ : Lut), lt_log v (.int b) lut = (.ok e, lut₁) ∧
      (b : ℚ) ^ e < (v : ℚ) ∧ (v : ℚ) ≤ (b : ℚ) ^ (e + 1)) ∧
    (∃ (e : Int) (lut₁ : Lut), le_log v (.int b) lut = (.ok e, lut₁) ∧
      (b : ℚ) ^ e ≤ (v : ℚ) ∧ (v : ℚ) < (b : ℚ) ^ (e + 1)) := by
  refine ⟨?_, ?_, ?_, ?_⟩
  · obtain ⟨K, lut₁, heq, hspec, _, _⟩ := gt_log_ok hg hb hv
    obtain ⟨h1, h2⟩ := gtSpec_q_bounds hb hv hspec
    exact ⟨(K : Int), lut₁, heq, h1, h2⟩
  · obtain ⟨K, lut₁, heq, hspec, _, _⟩ := ge_log_ok hg hb hv
    obtain ⟨h1, h2⟩ := geSpec_q_bounds hb hv hspec
    exact ⟨(K : Int), lut₁, heq, h1, h2⟩
  · obtain ⟨K, lut₁, heq, hspec, _, _⟩ := lt_log_ok hg hb hv
    obtain ⟨h1, h2⟩ := geSpec_q_bounds hb hv hspec
    refine ⟨(K : Int) - 1, lut₁, heq, h1, ?_⟩
    rw [sub_add_cancel]
    exact h2
  · obtain ⟨K, lut₁, heq, hspec, _, _⟩ := le_log_ok hg hb hv
    obtain ⟨h1, h2⟩ := gtSpec_q_bounds hb hv hspec
    refine ⟨(K : Int) - 1, lut₁, heq, h1, ?_⟩
    rw [sub_add_cancel]
    exact h2

theorem auto_log_double_inequalities_witness :
    (∃ (e : Int) (lut₁ : Lut), gt_log 10 (.int 3) emptyLut = (.ok e, lut₁) ∧
      (3 : ℚ) ^ (e - 1) ≤ (10 : ℚ) ∧ ((10 : Int) : ℚ) < (3 : ℚ) ^ e) ∧
    (∃ (e : Int) (lut₁ : Lut), ge_log 10 (.int 3) emptyLut = (.ok e, lut₁) ∧
      (3 : ℚ) ^ (e - 1) < (10 : ℚ) ∧ ((10 : Int) : ℚ) ≤ (3 : ℚ) ^ e) ∧
    (∃ (e : Int) (lut₁ : Lut), lt_log 10 (.int 3) emptyLut = (.ok e, lut₁) ∧
      (3 : ℚ) ^ e < (10 : ℚ) ∧ ((10 : Int) : ℚ) ≤ (3 : ℚ) ^ (e + 1)) ∧
    (∃ (e : Int) (lut₁ : Lut), le_log 10 (.int 3) emptyLut = (.ok e, lut₁) ∧
      (3 : ℚ) ^ e ≤ (10 : ℚ) ∧ ((10 : Int) : ℚ) < (3 : ℚ) ^ (e + 1)) := by
  have h := auto_log_double_inequalities emptyLut goodLut_empty 3 10
    (by norm_num) (by norm_num)
  exact_mod_cast h

/-! ### C2 -/

/-- C2: for every integer base ≥ 2, every integer value ≥ 1 and every well-formed
registry state, `gt_pow` returns the minimum power of `base` strictly greater than
`value`, `ge_pow` the minimum power ≥ `value`, `le_pow` the maximum power ≤ `value`,
and `lt_pow` the maximum power strictly below `value` — except that for `value = 1`
the `lt` query returns the sentinel `0`. -/
theorem auto_pow_minimality (lut : Lut) (hg : GoodLut lut) (b v : Int)
    (hb : 2 ≤ b) (hv : 1 ≤ v) :
    (∃ (P : Int) (lut₁ : Lut), gt_pow v (.int b) lut = (.ok (.int P), lut₁) ∧
      (∃ k : Nat, P = b ^ k) ∧ v < P ∧ ∀ j : Nat, v < b ^ j → P ≤ b ^ j) ∧
    (∃ (P : Int) (lut₁ : Lut), ge_pow v (.int b) lut = (.ok (.int P), lut₁) ∧
      (∃ k : Nat, P = b ^ k) ∧ v ≤ P ∧ ∀ j : Nat, v ≤ b ^ j → P ≤ b ^ j) ∧
    (∃ (P : Int) (lut₁ : Lut), le_pow v (.int b) lut = (.ok (.int P), lut₁) ∧
      (∃ k : Nat, P = b ^ k) ∧ P ≤ v ∧ ∀ j : Nat, b ^ j ≤ v → b ^ j ≤ P) ∧
    (∃ (P : Int) (lut₁ : Lut), lt_pow v (.int b) lut = (.ok (.int P), lut₁) ∧
      (2 ≤ v → (∃ k : Nat, P = b ^ k) ∧ P < v ∧ ∀ j : Nat, b ^ j < v → b ^ j ≤ P) ∧
      (v = 1 → P = 0)) := by
  refine ⟨?_, ?_, ?_, ?_⟩
  · obtain ⟨K, lut₁, heq, hspec, _, _⟩ := gt_pow_ok hg hb hv
    refine ⟨b ^ K, lut₁, heq, ⟨K, rfl⟩, hspec.1, ?_⟩
    intro j hj
    have hKj : K ≤ j := by
      by_contra hc
      have := hspec.2 j (by omega)
      omega
    exact pow_le_pow_right₀ (by omega) hKj
  · obtain ⟨K, lut₁, heq, hspec, _, _⟩ := ge_pow_ok hg hb hv
    refine ⟨b ^ K, lut₁, heq, ⟨K, rfl⟩, hspec.1, ?_⟩
    intro j hj
    have hKj : K ≤ j := by
      by_contra hc
      have := hspec.2 j (by omega)
      omega
    exact pow_le_pow_right₀ (by omega) hKj
  · obtain ⟨K, lut₁, heq, hspec, _, _⟩ := le_pow_ok hg hb hv
    have hK := gtSpec_pos hv hspec
    refine ⟨b ^ (K - 1), lut₁, heq, ⟨K - 1, rfl⟩, hspec.2 (K - 1) (by omega), ?_⟩
    intro j hj
    have hjK : j ≤ K - 1 := by
      by_contra hc
      have hKj : K ≤ j := by omega
      have := pow_le_pow_right₀ (by omega : (1:Int) ≤ b) hKj
      have := hspec.1
      omega
    exact pow_le_pow_right₀ (by omega) hjK
  · obtain ⟨K, lut₁, heq, hspec, _, _⟩ := lt_pow_ok hg hb hv
    refine ⟨if K = 0 then 0 else b ^ (K - 1), lut₁, heq, ?_, ?_⟩
    · intro hv2
      have hK : 1 ≤ K := by
        by_contra hc
        have hK0 : K = 0 := by omega
        subst hK0
        have := hspec.1
        rw [pow_zero] at this
        omega
      rw [if_neg (by omega)]
      refine ⟨⟨K - 1, rfl⟩, hspec.2 (K - 1) (by omega), ?_⟩
      intro j hj
      have hjK : j ≤ K - 1 := by
        by_contra hc
        have hKj : K ≤ j := by omega
        have h1 := pow_le_pow_right₀ (by omega : (1:Int) ≤ b) hKj
        have h2 := hspec.1
        omega
      exact pow_le_pow_right₀ (by omega) hjK
    · intro hv1
      subst hv1
      have hK : K = 0 := by
        by_contra hc
        have := hspec.2 0 (by omega)
        rw [pow_zero] at this
        omega
      rw [if_pos hK]

theorem auto_pow_minimality_witness :
    (∃ (P : Int) (lut₁ : Lut), gt_pow 9 (.int 3) emptyLut = (.ok (.int P), lut₁) ∧
      (∃ k : Nat, P = 3 ^ k) ∧ (9 : Int) < P ∧ ∀ j : Nat, (9 : Int) < 3 ^ j → P ≤ 3 ^ j) ∧
    (∃ (P : Int) (lut₁ : Lut), ge_pow 9 (.int 3) emptyLut = (.ok (.int P), lut₁) ∧
      (∃ k : Nat, P = 3 ^ k) ∧ (9 : Int) ≤ P ∧ ∀ j : Nat, (9 : Int) ≤ 3 ^ j → P ≤ 3 ^ j) ∧
    (∃ (P : Int) (lut₁ : Lut), le_pow 9 (.int 3) emptyLut = (.ok (.int P), lut₁) ∧
      (∃ k : Nat, P = 3 ^ k) ∧ P ≤ 9 ∧ ∀ j : Nat, (3 : Int) ^ j ≤ 9 → 3 ^ j ≤ P) ∧
    (∃ (P : Int) (lut₁ : Lut), lt_pow 9 (.int 3) emptyLut = (.ok (.int P), lut₁) ∧
      ((2 : Int) ≤ 9 → (∃ k : Nat, P = 3 ^ k) ∧ P < 9 ∧
        ∀ j : Nat, (3 : Int) ^ j < 9 → 3 ^ j ≤ P) ∧
      ((9 : Int) = 1 → P = 0)) :=
  auto_pow_minimality emptyLut goodLut_empty 3 9 (by norm_num) (by norm_num)

end Intlog

namespace Intlog

/-! ### C3 -/

/-- C3: for every rounding mode, base ≥ 2 and value ≥ 1, the auto-extending function
(on any well-formed registry), the pre-extended fast function (on any well-formed
registry whose table for the base covers the value's bit length) and the unaccelerated
slow function return identical results, for both the log and the pow families. -/
theorem disciplines_agree (m : Mode) (lut lutf : Lut) (hg : GoodLut lut)
    (hgf : GoodLut lutf) (b v : Int) (hb : 2 ≤ b) (hv : 1 ≤ v)
    (hcov : Covers lutf b (bit_length v)) :
    ∃ (e : Int) (lut₁ : Lut), mode_log m v (.int b) lut = (.ok e, lut₁) ∧
      mode_slow_log m v b = .ok e ∧
      mode_fast_log m v (.int b) lutf = .ok e ∧
      ∃ (P : Int) (lut₂ : Lut), mode_pow m v (.int b) lut = (.ok (.int P), lut₂) ∧
        mode_slow_pow m v b = .ok P ∧
        mode_fast_pow m v (.int b) lutf = .ok (.int P) := by
  cases m with
  | gt =>
    obtain ⟨K1, lut₁, h1, hs1, _, _⟩ := gt_log_ok hg hb hv
    obtain ⟨K2, h2, hs2⟩ := slow_gt_log_ok hb hv
    obtain ⟨K3, h3, hs3⟩ := fast_gt_log_ok hgf hb hv hcov
    obtain ⟨K4, lut₂, h4, hs4, _, _⟩ := gt_pow_ok hg hb hv
    obtain ⟨K5, h5, hs5⟩ := slow_gt_pow_ok hb hv
    obtain ⟨K6, h6, hs6⟩ := fast_gt_pow_ok hgf hb hv hcov
    have e2 := gtSpec_unique hs2 hs1
    have e3 := gtSpec_unique hs3 hs1
    have e4 := gtSpec_unique hs4 hs1
    have e5 := gtSpec_unique hs5 hs1
    have e6 := gtSpec_unique hs6 hs1
    rw [e2] at h2
    rw [e3] at h3
    rw [e4] at h4
    rw [e5] at h5
    rw [e6] at h6
    exact ⟨(K1 : Int), lut₁, h1, h2, h3, b ^ K1, lut₂, h4, h5, h6⟩
  | ge =>
    obtain ⟨K1, lut₁, h1, hs1, _, _⟩ := ge_log_ok hg hb hv
    obtain ⟨K2, h2, hs2⟩ := slow_ge_log_ok hb hv
    obtain ⟨K3, h3, hs3⟩ := fast_ge_log_ok hgf hb hv hcov
    obtain ⟨K4, lut₂, h4, hs4, _, _⟩ := ge_pow_ok hg hb hv
    obtain ⟨K5, h5, hs5⟩ := slow_ge_pow_ok hb hv
    obtain ⟨K6, h6, hs6⟩ := fast_ge_pow_ok hgf hb hv hcov
    have e2 := geSpec_unique hs2 hs1
    have e3 := geSpec_unique hs3 hs1
    have e4 := geSpec_unique hs4 hs1
    have e5 := geSpec_unique hs5 hs1
    have e6 := geSpec_unique hs6 hs1
    rw [e2] at h2
    rw [e3] at h3
    rw [e4] at h4
    rw [e5] at h5
    rw [e6] at h6
    exact ⟨(K1 : Int), lut₁, h1, h2, h3, b ^ K1, lut₂, h4, h5, h6⟩
  | lt =>
    obtain ⟨K1, lut₁, h1, hs1, _, _⟩ := lt_log_ok hg hb hv
    obtain ⟨K2, h2, hs2⟩ := slow_lt_log_ok hb hv
    obtain ⟨K3, h3, hs3⟩ := fast_lt_log_ok hgf hb hv hcov
    obtain ⟨K4, lut₂, h4, hs4, _, _⟩ := lt_pow_ok hg hb hv
    obtain ⟨K5, h5, hs5⟩ := slow_lt_pow_ok hb hv
    obtain ⟨K6, h6, hs6⟩ := fast_lt_pow_ok hgf hb hv hcov
    have e2 := geSpec_unique hs2 hs1
    have e3 := geSpec_unique hs3 hs1
    have e4 := geSpec_unique hs4 hs1
    have e5 := geSpec_unique hs5 hs1
    have e6 := geSpec_unique hs6 hs1
    rw [e2] at h2
    rw [e3] at h3
    rw [e4] at h4
    rw [e5] at h5
    rw [e6] at h6
    exact ⟨(K1 : Int) - 1, lut₁, h1, h2, h3,
      if K1 = 0 then 0 else b ^ (K1 - 1), lut₂, h4, h5, h6⟩
  | le =>
    obtain ⟨K1, lut₁, h1, hs1, _, _⟩ := le_log_ok hg hb hv
    obtain ⟨K2, h2, hs2⟩ := slow_le_log_ok hb hv
    obtain ⟨K3, h3, hs3⟩ := fast_le_log_ok hgf hb hv hcov
    obtain ⟨K4, lut₂, h4, hs4, _, _⟩ := le_pow_ok hg hb hv
    obtain ⟨K5, h5, hs5⟩ := slow_le_pow_ok hb hv
    obtain ⟨K6, h6, hs6⟩ := fast_le_pow_ok hgf hb hv hcov
    have e2 := gtSpec_unique hs2 hs1
    have e3 := gtSpec_unique hs3 hs1
    have e4 := gtSpec_unique hs4 hs1
    have e5 := gtSpec_unique hs5 hs1
    have e6 := gtSpec_unique hs6 hs1
    rw [e2] at h2
    rw [e3] at h3
    rw [e4] at h4
    rw [e5] at h5
    rw [e6] at h6
    exact ⟨(K1 : Int) - 1, lut₁, h1, h2, h3, b ^ (K1 - 1), lut₂, h4, h5, h6⟩

theorem disciplines_agree_witness :
    ∃ (e : Int) (lut₁ : Lut), mode_log .lt 5 (.int 2) emptyLut = (.ok e, lut₁) ∧
      mode_slow_log .lt 5 2 = .ok e ∧
      mode_fast_log .lt 5 (.int 2) (lutInsert emptyLut 2 (tableN 2 2)) = .ok e ∧
      ∃ (P : Int) (lut₂ : Lut), mode_pow .lt 5 (.int 2) emptyLut = (.ok (.int P), lut₂) ∧
        mode_slow_pow .lt 5 2 = .ok P ∧
        mode_fast_pow .lt 5 (.int 2) (lutInsert emptyLut 2 (tableN 2 2)) = .ok (.int P) := by
  apply disciplines_agree .lt emptyLut (lutInsert emptyLut 2 (tableN 2 2)) goodLut_empty
    (goodLut_insert goodLut_empty (by norm_num) 2) 2 5 (by norm_num) (by norm_num)
  refine ⟨tableN 2 2, ?_, ?_⟩
  · simp [lutInsert]
  · rw [tableN_length 2 (by norm_num) 2]
    have h4 : bit_length ((2 : Int) ^ 2) = 3 := by
      have h : ((2 : Int) ^ 2) = 4 := by norm_num
      rw [h]
      exact bit_length_eval (by norm_num) (by decide) (by decide)
    have h5 : bit_length (5 : Int) = 3 :=
      bit_length_eval (by norm_num) (by decide) (by decide)
    rw [h4, h5]
    omega

/-! ### C4 -/

/-- C4 fails as stated: at `value = 1` the `lt` pair gives `lt_log = -1` but
`lt_pow = 0`, and `base ** (-1)` is `1/base`, not `0`. -/
theorem log_pow_consistency_fails_at_lt_one :
    (lt_log 1 (.int 2) emptyLut).1 = .ok (-1) ∧
    (lt_pow 1 (.int 2) emptyLut).1 = .ok (.int 0) ∧
    ¬ ((2 : ℚ) ^ (-1 : ℤ) = ((0 : Int) : ℚ)) := by
  have hge : GeSpec 2 1 0 := by
    constructor
    · norm_num
    · intro j hj
      omega
  refine ⟨?_, ?_, ?_⟩
  · obtain ⟨K, lut₁, heq, hspec, _, _⟩ :=
      lt_log_ok goodLut_empty (b := 2) (v := 1) (by norm_num) (by norm_num)
    have hK : K = 0 := geSpec_unique hspec hge
    subst hK
    rw [heq]
    norm_num
  · obtain ⟨K, lut₁, heq, hspec, _, _⟩ :=
      lt_pow_ok goodLut_empty (b := 2) (v := 1) (by norm_num) (by norm_num)
    have hK : K = 0 := geSpec_unique hspec hge
    subst hK
    rw [heq]
    norm_num
  · rw [zpow_neg_one]
    norm_num

/-- C4 (amended): `base ** log_variant(value, base) == pow_variant(value, base)` holds
for the gt, ge and le pairs at every value ≥ 1 and for the lt pair at every value ≥ 2;
at `value = 1` the lt pair instead returns exponent −1 and the sentinel power 0
(`base ** (-1)` is `1/base`, not `0`). -/
theorem log_pow_consistency_amended (lut : Lut) (hg : GoodLut lut) (b v : Int)
    (hb : 2 ≤ b) (hv : 1 ≤ v) :
    (∃ (e P : Int) (lut₁ lut₂ : Lut),
      gt_log v (.int b) lut = (.ok e, lut₁) ∧
      gt_pow v (.int b) lut = (.ok (.int P), lut₂) ∧ (b : ℚ) ^ e = (P : ℚ)) ∧
    (∃ (e P : Int) (lut₁ lut₂ : Lut),
      ge_log v (.int b) lut = (.ok e, lut₁) ∧
      ge_pow v (.int b) lut = (.ok (.int P), lut₂) ∧ (b : ℚ) ^ e = (P : ℚ)) ∧
    (∃ (e P : Int) (lut₁ lut₂ : Lut),
      le_log v (.int b) lut = (.ok e, lut₁) ∧
      le_pow v (.int b) lut = (.ok (.int P), lut₂) ∧ (b : ℚ) ^ e = (P : ℚ)) ∧
    (∃ (e P : Int) (lut₁ lut₂ : Lut),
      lt_log v (.int b) lut = (.ok e, lut₁) ∧
      lt_pow v (.int b) lut = (.ok (.int P), lut₂) ∧
      (2 ≤ v → (b : ℚ) ^ e = (P : ℚ)) ∧ (v = 1 → e = -1 ∧ P = 0)) := by
  refine ⟨?_, ?_, ?_, ?_⟩
  · obtain ⟨K1, lut₁, h1, hs1, _, _⟩ := gt_log_ok hg hb hv
    obtain ⟨K2, lut₂, h2, hs2, _, _⟩ := gt_pow_ok hg hb hv
    have e2 := gtSpec_unique hs2 hs1
    rw [e2] at h2 hs2
    refine ⟨(K1 : Int), b ^ K1, lut₁, lut₂, h1, h2, ?_⟩
    rw [zpow_natCast]
    push_cast
    ring
  · obtain ⟨K1, lut₁, h1, hs1, _, _⟩ := ge_log_ok hg hb hv
    obtain ⟨K2, lut₂, h2, hs2, _, _⟩ := ge_pow_ok hg hb hv
    have e2 := geSpec_unique hs2 hs1
    rw [e2] at h2 hs2
    refine ⟨(K1 : Int), b ^ K1, lut₁, lut₂, h1, h2, ?_⟩
    rw [zpow_natCast]
    push_cast
    ring
  · obtain ⟨K1, lut₁, h1, hs1, _, _⟩ := le_log_ok hg hb hv
    obtain ⟨K2, lut₂, h2, hs2, _, _⟩ := le_pow_ok hg hb hv
    have e2 := gtSpec_unique hs2 hs1
    rw [e2] at h2 hs2
    have hK := gtSpec_pos hv hs1
    refine ⟨(K1 : Int) - 1, b ^ (K1 - 1), lut₁, lut₂, h1, h2, ?_⟩
    have h : (K1 : ℤ) - 1 = ((K1 - 1 : Nat) : ℤ) := by omega
    rw [h, zpow_natCast]
    push_cast
    ring
  · obtain ⟨K1, lut₁, h1, hs1, _, _⟩ := lt_log_ok hg hb hv
    obtain ⟨K2, lut₂, h2, hs2, _, _⟩ := lt_pow_ok hg hb hv
    have e2 := geSpec_unique hs2 hs1
    rw [e2] at h2 hs2
    refine ⟨(K1 : Int) - 1, if K1 = 0 then 0 else b ^ (K1 - 1), lut₁, lut₂, h1, h2, ?_, ?_⟩
    · intro hv2
      have hK : 1 ≤ K1 := by
        by_contra hc
        have hK0 : K1 = 0 := by omega
        subst hK0
        have := hs1.1
        rw [pow_zero] at this
        omega
      rw [if_neg (by omega)]
      have h : (K1 : ℤ) - 1 = ((K1 - 1 : Nat) : ℤ) := by omega
      rw [h, zpow_natCast]
      push_cast
      ring
    · intro hv1
      subst hv1
      have hK : K1 = 0 := by
        by_contra hc
        have := hs1.2 0 (by omega)
        rw [pow_zero] at this
        omega
      subst hK
      rw [if_pos rfl]
      norm_num

theorem log_pow_consistency_amended_witness :
    (∃ (e P : Int) (lut₁ lut₂ : Lut),
      gt_log 7 (.int 2) emptyLut = (.ok e, lut₁) ∧
      gt_pow 7 (.int 2) emptyLut = (.ok (.int P), lut₂) ∧ (2 : ℚ) ^ e = (P : ℚ)) ∧
    (∃ (e P : Int) (lut₁ lut₂ : Lut),
      ge_log 7 (.int 2) emptyLut = (.ok e, lut₁) ∧
      ge_pow 7 (.int 2) emptyLut = (.ok (.int P), lut₂) ∧ (2 : ℚ) ^ e = (P : ℚ)) ∧
    (∃ (e P : Int) (lut₁ lut₂ : Lut),
      le_log 7 (.int 2) emptyLut = (.ok e, lut₁) ∧
      le_pow 7 (.int 2) emptyLut = (.ok (.int P), lut₂) ∧ (2 : ℚ) ^ e = (P : ℚ)) ∧
    (∃ (e P : Int) (lut₁ lut₂ : Lut),
      lt_log 7 (.int 2) emptyLut = (.ok e, lut₁) ∧
      lt_pow 7 (.int 2) emptyLut = (.ok (.int P), lut₂) ∧
      ((2 : Int) ≤ 7 → (2 : ℚ) ^ e = (P : ℚ)) ∧ ((7 : Int) = 1 → e = -1 ∧ P = 0)) :=
  log_pow_consistency_amended emptyLut goodLut_empty 2 7 (by norm_num) (by norm_num)

end Intlog

namespace Intlog

/-! ### C5 -/

/-- C5 fails as stated: the fast discipline performs no domain check.  On a registry
whose base-2 table covers bit length 2, `fast_gt_log(-3, 2)` returns the value 1
instead of failing with ValueError. -/
theorem fast_log_no_domain_check :
    fast_gt_log (-3) (.int 2) (lutInsert emptyLut 2 (tableN 2 1)) = .ok 1 := by
  have hbl2 : bit_length (2 : Int) = 2 := bit_length_eval (by norm_num) (by decide) (by decide)
  have hblm3 : bit_length (-3 : Int) = 2 :=
    bit_length_eval (by norm_num) (by decide) (by decide)
  have hget : (tableN 2 1)[(2 : Nat)]? = some (some (1, 2)) := by
    obtain ⟨e, he, hget, hle, hmin⟩ := tableN_entry 2 (by norm_num) 1 2 (by norm_num)
      (by rw [pow_one, hbl2])
    have he1 : e = 1 := by
      by_contra hne
      have he0 : e = 0 := by omega
      subst he0
      rw [pow_zero] at hle
      have hbl1 : bit_length (1 : Int) = 1 :=
        bit_length_eval (by norm_num) (by decide) (by decide)
      omega
    subst he1
    rw [pow_one] at hget
    simpa using hget
  have hfind : lutInsert emptyLut 2 (tableN 2 1) 2 = some (tableN 2 1) := by
    simp [lutInsert]
  simp only [fast_gt_log, lutFind, hfind, hblm3, hget]
  rw [if_neg (by norm_num)]
  norm_num

/-- C5 (amended): every auto-extending query, both mode dispatchers, and every slow
query fail with ValueError whenever `value ≤ 0` — for every base (even an invalid
one) and every rounding argument — and leave the registry unchanged; the `fast_*`
functions perform no such domain check. -/
theorem domain_rejection_amended (v : Int) (hv : v ≤ 0) (base : PyNum) (b : Int)
    (r : RoundArg) (lut : Lut) :
    gt_log v base lut = (.error .valueError, lut) ∧
    ge_log v base lut = (.error .valueError, lut) ∧
    lt_log v base lut = (.error .valueError, lut) ∧
    le_log v base lut = (.error .valueError, lut) ∧
    int_log v base r lut = (.error .valueError, lut) ∧
    gt_pow v base lut = (.error .valueError, lut) ∧
    ge_pow v base lut = (.error .valueError, lut) ∧
    lt_pow v base lut = (.error .valueError, lut) ∧
    le_pow v base lut = (.error .valueError, lut) ∧
    int_pow v base r lut = (.error .valueError, lut) ∧
    slow_gt_log v b = .error .valueError ∧
    slow_ge_log v b = .error .valueError ∧
    slow_lt_log v b = .error .valueError ∧
    slow_le_log v b = .error .valueError ∧
    slow_int_log v b r = .error .valueError ∧
    slow_gt_pow v b = .error .valueError ∧
    slow_ge_pow v b = .error .valueError ∧
    slow_lt_pow v b = .error .valueError ∧
    slow_le_pow v b = .error .valueError ∧
    slow_int_pow v b r = .error .valueError := by
  refine ⟨?_, ?_, ?_, ?_, ?_, ?_, ?_, ?_, ?_, ?_, ?_, ?_, ?_, ?_, ?_, ?_, ?_, ?_, ?_, ?_⟩
  · simp only [gt_log, if_pos hv]
  · simp only [ge_log, if_pos hv]
  · simp only [lt_log, if_pos hv]
  · simp only [le_log, if_pos hv]
  · simp only [int_log, if_pos hv]
  · simp only [gt_pow, if_pos hv]
  · simp only [ge_pow, if_pos hv]
  · simp only [lt_pow, if_pos hv]
  · simp only [le_pow, if_pos hv]
  · simp only [int_pow, if_pos hv]
  · simp only [slow_gt_log, if_pos hv]
  · simp only [slow_ge_log, if_pos hv]
  · simp only [slow_lt_log, if_pos hv]
  · simp only [slow_le_log, if_pos hv]
  · simp only [slow_int_log, if_pos hv]
  · simp only [slow_gt_pow, if_pos hv]
  · simp only [slow_ge_pow, if_pos hv]
  · simp only [slow_lt_pow, if_pos hv]
  · simp only [slow_le_pow, if_pos hv]
  · simp only [slow_int_pow, if_pos hv]

theorem domain_rejection_amended_witness :
    gt_log (-3) (.int 2) emptyLut = (.error .valueError, emptyLut) ∧
    ge_log (-3) (.int 2) emptyLut = (.error .valueError, emptyLut) ∧
    lt_log (-3) (.int 2) emptyLut = (.error .valueError, emptyLut) ∧
    le_log (-3) (.int 2) emptyLut = (.error .valueError, emptyLut) ∧
    int_log (-3) (.int 2) .tagGt emptyLut = (.error .valueError, emptyLut) ∧
    gt_pow (-3) (.int 2) emptyLut = (.error .valueError, emptyLut) ∧
    ge_pow (-3) (.int 2) emptyLut = (.error .valueError, emptyLut) ∧
    lt_pow (-3) (.int 2) emptyLut = (.error .valueError, emptyLut) ∧
    le_pow (-3) (.int 2) emptyLut = (.error .valueError, emptyLut) ∧
    int_pow (-3) (.int 2) .tagGt emptyLut = (.error .valueError, emptyLut) ∧
    slow_gt_log (-3) 2 = .error .valueError ∧
    slow_ge_log (-3) 2 = .error .valueError ∧
    slow_lt_log (-3) 2 = .error .valueError ∧
    slow_le_log (-3) 2 = .error .valueError ∧
    slow_int_log (-3) 2 .tagGt = .error .valueError ∧
    slow_gt_pow (-3) 2 = .error .valueError ∧
    slow_ge_pow (-3) 2 = .error .valueError ∧
    slow_lt_pow (-3) 2 = .error .valueError ∧
    slow_le_pow (-3) 2 = .error .valueError ∧
    slow_int_pow (-3) 2 .tagGt = .error .valueError :=
  domain_rejection_amended (-3) (by norm_num) (.int 2) 2 .tagGt emptyLut

end Intlog

namespace Intlog

/-! ### C6 -/

/-- A base `_init_base` rejects: any float, or any integer ≤ 1. -/
def InvalidBase : PyNum → Prop
  | .int i => i ≤ 1
  | .float _ => True

/-- The exception class the first use of an invalid base raises:
TypeError for non-integers, ValueError for integers ≤ 1. -/
def invalidBaseError : PyNum → Err
  | .int _ => .valueError
  | .float _ => .typeError

theorem init_base_invalid {base : PyNum} (hbad : InvalidBase base) (lut : Lut) :
    init_base base lut = .error (invalidBaseError base) := by
  cases base with
  | float q => rfl
  | int i =>
    simp only [InvalidBase] at hbad
    simp only [init_base, invalidBaseError, if_pos hbad]

/-- C6: a base that is not an integer (TypeError) or an integer ≤ 1 (ValueError) is
rejected by its first table-initializing use: both extension functions always fail,
every auto-extending query whose lookup misses (the situation in which it would
initialize the table) fails, and in every case the registry — in particular the
entry for that base — is unchanged, so no table is created. -/
theorem invalid_base_rejection (base : PyNum) (hbad : InvalidBase base) (lut : Lut)
    (v maxB : Int) (hv : 1 ≤ v) (r : RoundArg) (hr : ∃ ops, ROUNDING r = some ops)
    (hmiss : lutFind lut base = none) :
    extend_fast_range_to_bitlen maxB base lut = (.error (invalidBaseError base), lut) ∧
    extend_fast_range_to_power maxB base lut = (.error (invalidBaseError base), lut) ∧
    gt_log v base lut = (.error (invalidBaseError base), lut) ∧
    ge_log v base lut = (.error (invalidBaseError base), lut) ∧
    lt_log v base lut = (.error (invalidBaseError base), lut) ∧
    le_log v base lut = (.error (invalidBaseError base), lut) ∧
    int_log v base r lut = (.error (invalidBaseError base), lut) ∧
    gt_pow v base lut = (.error (invalidBaseError base), lut) ∧
    ge_pow v base lut = (.error (invalidBaseError base), lut) ∧
    lt_pow v base lut = (.error (invalidBaseError base), lut) ∧
    le_pow v base lut = (.error (invalidBaseError base), lut) ∧
    int_pow v base r lut = (.error (invalidBaseError base), lut) := by
  have hinit := init_base_invalid hbad lut
  have hext : ∀ m : Int, extend_fast_range_to_bitlen m base lut
      = (.error (invalidBaseError base), lut) := by
    intro m
    simp only [extend_fast_range_to_bitlen, hinit]
  have hlook : lookup_or_extend base lut (bit_length v)
      = (.error (invalidBaseError base), lut) := by
    simp only [lookup_or_extend, hmiss, hext]
  have hv0 : ¬ v ≤ 0 := by omega
  obtain ⟨ops, hrops⟩ := hr
  obtain ⟨a1, a2, a3, a4, a5⟩ := ops
  refine ⟨hext maxB, ?_, ?_, ?_, ?_, ?_, ?_, ?_, ?_, ?_, ?_, ?_⟩
  · simp only [extend_fast_range_to_power, hinit]
  · simp only [gt_log, if_neg hv0, hlook]
  · simp only [ge_log, if_neg hv0, hlook]
  · simp only [lt_log, if_neg hv0, hlook]
  · simp only [le_log, if_neg hv0, hlook]
  · simp only [int_log, if_neg hv0, hrops, hlook]
  · simp only [gt_pow, if_neg hv0, hlook]
  · simp only [ge_pow, if_neg hv0, hlook]
  · simp only [lt_pow, if_neg hv0, hlook]
  · simp only [le_pow, if_neg hv0, hlook]
  · simp only [int_pow, if_neg hv0, hrops, hlook]

theorem invalid_base_rejection_witness :
    (InvalidBase (.int 1) ∧ InvalidBase (.int 0) ∧ InvalidBase (.int (-2)) ∧
      InvalidBase (.float (5 / 2))) ∧
    (extend_fast_range_to_bitlen 3 (.int 1) emptyLut
        = (.error (invalidBaseError (.int 1)), emptyLut) ∧
      extend_fast_range_to_power 3 (.int 1) emptyLut
        = (.error (invalidBaseError (.int 1)), emptyLut) ∧
      gt_log 5 (.int 1) emptyLut = (.error (invalidBaseError (.int 1)), emptyLut) ∧
      ge_log 5 (.int 1) emptyLut = (.error (invalidBaseError (.int 1)), emptyLut) ∧
      lt_log 5 (.int 1) emptyLut = (.error (invalidBaseError (.int 1)), emptyLut) ∧
      le_log 5 (.int 1) emptyLut = (.error (invalidBaseError (.int 1)), emptyLut) ∧
      int_log 5 (.int 1) .tagLe emptyLut = (.error (invalidBaseError (.int 1)), emptyLut) ∧
      gt_pow 5 (.int 1) emptyLut = (.error (invalidBaseError (.int 1)), emptyLut) ∧
      ge_pow 5 (.int 1) emptyLut = (.error (invalidBaseError (.int 1)), emptyLut) ∧
      lt_pow 5 (.int 1) emptyLut = (.error (invalidBaseError (.int 1)), emptyLut) ∧
      le_pow 5 (.int 1) emptyLut = (.error (invalidBaseError (.int 1)), emptyLut) ∧
      int_pow 5 (.int 1) .tagLe emptyLut = (.error (invalidBaseError (.int 1)), emptyLut)) ∧
    extend_fast_range_to_bitlen 3 (.float (5 / 2)) emptyLut
      = (.error (invalidBaseError (.float (5 / 2))), emptyLut) :=
  ⟨⟨by simp [InvalidBase], by simp [InvalidBase], by simp [InvalidBase],
      by simp [InvalidBase]⟩,
    invalid_base_rejection (.int 1) (by simp [InvalidBase]) emptyLut 5 3 (by norm_num)
      .tagLe ⟨leOps, rfl⟩ rfl,
    (invalid_base_rejection (.float (5 / 2)) (by simp [InvalidBase]) emptyLut 5 3
      (by norm_num) .tagLe ⟨leOps, rfl⟩ (by simp [lutFind, emptyLut])).1⟩

end Intlog

namespace Intlog

/-! ### C7 -/

/-- C7 fails as stated: after extending base 6 to bit length 2, the checkpoint at
index 2 stores the power 6, whose bit length is 3, not 2 (no power of 6 has bit
length 2, so the stored power's bit length exceeds the index). -/
theorem checkpoint_bitlen_not_equal :
    (((extend_fast_range_to_bitlen 2 (.int 6) emptyLut).2 6).bind fun t => t[(2 : Nat)]?)
      = some (some (1, 6)) ∧ bit_length 6 = 3 ∧ ¬ bit_length 6 = 2 := by
  have hbl1 : bit_length (1 : Int) = 1 := bit_length_eval (by norm_num) (by decide) (by decide)
  have hbl6 : bit_length (6 : Int) = 3 := bit_length_eval (by norm_num) (by decide) (by decide)
  obtain ⟨m', h1, heq, h2, h3⟩ :=
    @extend_bitlen_ok emptyLut 6 (by norm_num) 0 (Or.inr ⟨rfl, rfl⟩) 2
  have hm' : m' = 1 := by
    have hm0 : ¬ m' = 0 := by
      intro h0
      subst h0
      rw [pow_zero, hbl1] at h2
      omega
    have hm2 : ¬ 2 ≤ m' := by
      intro hge
      have := h3 1 (by omega) (by omega)
      rw [pow_one, hbl6] at this
      omega
    omega
  subst hm'
  have hgetentry : (tableN 6 1)[(2 : Nat)]? = some (some (1, 6)) := by
    obtain ⟨e, he, hget, hle, hmin⟩ := tableN_entry 6 (by norm_num) 1 2 (by norm_num)
      (by rw [pow_one, hbl6]; omega)
    have he1 : e = 1 := by
      by_contra hne
      have he0 : e = 0 := by omega
      subst he0
      rw [pow_zero, hbl1] at hle
      omega
    subst he1
    rw [pow_one] at hget
    simpa using hget
  rw [heq]
  refine ⟨?_, hbl6, by omega⟩
  simp [lutInsert, hgetentry]

/-- C7 (amended): for every well-formed registry and base ≥ 2, every populated table
index `i ≥ 1` holds a pair `(e, base ^ e)` in which `base ^ e` is the minimal power of
the base whose bit length is at least `i` (equality can fail when the base skips a bit
length); in particular the checkpoint fetched by a query for a value of bit length
`bitlen` has `power.bit_length() ≥ bitlen`. -/
theorem checkpoint_minimal_ge_bitlen (lut : Lut) (hg : GoodLut lut) (b : Int)
    (hb : 2 ≤ b) :
    (∀ (t : Table) (i : Nat) (x : Entry), lut b = some t → 1 ≤ i → t[i]? = some x →
      ∃ e : Nat, x = some ((e : Int), b ^ e) ∧ i ≤ bit_length (b ^ e) ∧
        ∀ j : Nat, j < e → bit_length (b ^ j) < i) ∧
    (∀ v : Int, 1 ≤ v →
      ∃ (e : Nat) (lut' : Lut),
        lookup_or_extend (.int b) lut (bit_length v) = (.ok ((e : Int), b ^ e), lut') ∧
        bit_length v ≤ bit_length (b ^ e)) := by
  constructor
  · intro t i x hsome hi hget
    obtain ⟨hb2, n, rfl⟩ := hg b t hsome
    have hcov : i ≤ bit_length (b ^ n) := by
      by_contra hc
      have hnone : (tableN b n)[i]? = none := by
        apply List.getElem?_eq_none
        rw [tableN_length b hb n]
        omega
      rw [hnone] at hget
      exact Option.noConfusion hget
    obtain ⟨e, he, hget2, hle, hmin⟩ := tableN_entry b hb n i hi hcov
    rw [hget2] at hget
    injection hget with hx
    exact ⟨e, hx.symm, hle, hmin⟩
  · intro v hv
    obtain ⟨e, lut', heq, hc, _, _⟩ := lookup_or_extend_ok hg hb (bit_length_pos hv)
    exact ⟨e, lut', heq, hc.1⟩

theorem checkpoint_minimal_ge_bitlen_witness :
    (∀ (t : Table) (i : Nat) (x : Entry), emptyLut 6 = some t → 1 ≤ i → t[i]? = some x →
      ∃ e : Nat, x = some ((e : Int), (6 : Int) ^ e) ∧ i ≤ bit_length ((6 : Int) ^ e) ∧
        ∀ j : Nat, j < e → bit_length ((6 : Int) ^ j) < i) ∧
    (∀ v : Int, 1 ≤ v →
      ∃ (e : Nat) (lut' : Lut),
        lookup_or_extend (.int 6) emptyLut (bit_length v) = (.ok ((e : Int), (6 : Int) ^ e), lut') ∧
        bit_length v ≤ bit_length ((6 : Int) ^ e)) :=
  checkpoint_minimal_ge_bitlen emptyLut goodLut_empty 6 (by norm_num)

end Intlog

namespace Intlog

/-! ### C8 -/

/-- One public extension call. -/
inductive ExtOp
  | toPower (maxExp : Int) (base : PyNum)
  | toBitlen (maxBitlen : Int) (base : PyNum)

/-- The base argument of an extension call. -/
def extOpBase : ExtOp → PyNum
  | .toPower _ base => base
  | .toBitlen _ base => base

/-- The registry after one extension call (unchanged when the call raises). -/
def applyExtOp (lut : Lut) : ExtOp → Lut
  | .toPower m base => (extend_fast_range_to_power m base lut).2
  | .toBitlen m base => (extend_fast_range_to_bitlen m base lut).2

/-- The registry after a sequence of extension calls. -/
def applyExtOps (lut : Lut) (ops : List ExtOp) : Lut :=
  ops.foldl applyExtOp lut

/-- The dictionary key an argument of a numeric type would be stored or found under. -/
def pyKey : PyNum → Option Int
  | .int i => some i
  | .float q => if q.den = 1 then some q.num else none

theorem extend_bitlen_state (lut : Lut) (hg : GoodLut lut) (maxB : Int) (base : PyNum) :
    (extend_fast_range_to_bitlen maxB base lut).2 = lut ∨
    ∃ (b : Int) (m m' : Nat), base = .int b ∧ 2 ≤ b ∧ m ≤ m' ∧
      (lut b = some (tableN b m) ∨ (lut b = none ∧ m = 0)) ∧
      (extend_fast_range_to_bitlen maxB base lut).2 = lutInsert lut b (tableN b m') := by
  cases base with
  | float q => left; rfl
  | int b =>
    by_cases hb : b ≤ 1
    · left
      simp only [extend_fast_range_to_bitlen, init_base, if_pos hb]
    · have hb2 : 2 ≤ b := by omega
      cases hcase : lut b with
      | none =>
        obtain ⟨m', h1, heq, _, _⟩ := extend_bitlen_ok hb2 (Or.inr ⟨hcase, rfl⟩) maxB
        right
        exact ⟨b, 0, m', rfl, hb2, h1, Or.inr ⟨hcase, rfl⟩, by rw [heq]⟩
      | some t =>
        obtain ⟨_, n, rfl⟩ := hg b t hcase
        obtain ⟨m', h1, heq, _, _⟩ := extend_bitlen_ok hb2 (Or.inl hcase) maxB
        right
        exact ⟨b, n, m', rfl, hb2, h1, Or.inl hcase, by rw [heq]⟩

theorem extend_power_state (lut : Lut) (hg : GoodLut lut) (maxE : Int) (base : PyNum) :
    (extend_fast_range_to_power maxE base lut).2 = lut ∨
    ∃ (b : Int) (m m' : Nat), base = .int b ∧ 2 ≤ b ∧ m ≤ m' ∧
      (lut b = some (tableN b m) ∨ (lut b = none ∧ m = 0)) ∧
      (extend_fast_range_to_power maxE base lut).2 = lutInsert lut b (tableN b m') := by
  cases base with
  | float q => left; rfl
  | int b =>
    by_cases hb : b ≤ 1
    · left
      simp only [extend_fast_range_to_power, init_base, if_pos hb]
    · have hb2 : 2 ≤ b := by omega
      cases hcase : lut b with
      | none =>
        have heq := extend_power_ok hb2 (Or.inr ⟨hcase, rfl⟩) maxE
        right
        exact ⟨b, 0, 0 + (maxE - ((0 : Nat) : Int)).toNat, rfl, hb2, by omega,
          Or.inr ⟨hcase, rfl⟩, by rw [heq]⟩
      | some t =>
        obtain ⟨_, n, rfl⟩ := hg b t hcase
        have heq := extend_power_ok hb2 (Or.inl hcase) maxE
        right
        exact ⟨b, n, n + (maxE - (n : Int)).toNat, rfl, hb2, by omega,
          Or.inl hcase, by rw [heq]⟩

theorem applyExtOp_state (lut : Lut) (hg : GoodLut lut) (op : ExtOp) :
    applyExtOp lut op = lut ∨
    ∃ (b : Int) (m m' : Nat), extOpBase op = .int b ∧ 2 ≤ b ∧ m ≤ m' ∧
      (lut b = some (tableN b m) ∨ (lut b = none ∧ m = 0)) ∧
      applyExtOp lut op = lutInsert lut b (tableN b m') := by
  cases op with
  | toPower maxE base => exact extend_power_state lut hg maxE base
  | toBitlen maxB base => exact extend_bitlen_state lut hg maxB base

theorem applyExtOp_good {lut : Lut} (hg : GoodLut lut) (op : ExtOp) :
    GoodLut (applyExtOp lut op) := by
  rcases applyExtOp_state lut hg op with h | ⟨b, m, m', _, hb2, _, _, h⟩
  · rw [h]; exact hg
  · rw [h]; exact goodLut_insert hg hb2 m'

theorem applyExtOps_good (ops : List ExtOp) :
    ∀ {lut : Lut}, GoodLut lut → GoodLut (applyExtOps lut ops) := by
  induction ops with
  | nil => intro lut hg; exact hg
  | cons op ops ih =>
    intro lut hg
    exact ih (applyExtOp_good hg op)

theorem applyExtOp_preserves {lut : Lut} (hg : GoodLut lut) (op : ExtOp) (x : Int)
    (i : Nat) (en : Entry) (h : (lut x).bind (fun t => t[i]?) = some en) :
    ((applyExtOp lut op) x).bind (fun t => t[i]?) = some en := by
  rcases applyExtOp_state lut hg op with hs | ⟨b, m, m', _, hb2, hmm', hold, hs⟩
  · rw [hs]; exact h
  · rw [hs]
    by_cases hx : x = b
    · subst hx
      rcases hold with hsome | ⟨hnone, _⟩
      · rw [hsome] at h
        simp only [Option.some_bind] at h
        have hpre := tableN_prefix x hmm'
        have := prefix_getElem? hpre h
        simp only [lutInsert, if_pos rfl, Option.some_bind]
        exact this
      · rw [hnone] at h
        exact Option.noConfusion h
    · simp only [lutInsert, if_neg hx]
      exact h

theorem applyExtOp_frame {lut : Lut} (hg : GoodLut lut) (op : ExtOp) (x : Int)
    (hx : pyKey (extOpBase op) ≠ some x) : (applyExtOp lut op) x = lut x := by
  rcases applyExtOp_state lut hg op with hs | ⟨b, m, m', hbase, hb2, hmm', hold, hs⟩
  · rw [hs]
  · rw [hs]
    have hxb : x ≠ b := by
      intro heq
      subst heq
      rw [hbase] at hx
      exact hx rfl
    simp only [lutInsert, if_neg hxb]

/-- C8: along every sequence of extension calls starting from the empty registry,
each further call only appends: every checkpoint present at its index before the
call is present unchanged at the same index afterwards, and the tables of all other
bases are untouched. -/
theorem extension_append_only (ops : List ExtOp) (op : ExtOp) :
    (∀ (x : Int) (i : Nat) (en : Entry),
      ((applyExtOps emptyLut ops) x).bind (fun t => t[i]?) = some en →
      ((applyExtOps emptyLut (ops ++ [op])) x).bind (fun t => t[i]?) = some en) ∧
    (∀ x : Int, pyKey (extOpBase op) ≠ some x →
      (applyExtOps emptyLut (ops ++ [op])) x = (applyExtOps emptyLut ops) x) := by
  have hgood : GoodLut (applyExtOps emptyLut ops) := applyExtOps_good ops goodLut_empty
  have happ : applyExtOps emptyLut (ops ++ [op])
      = applyExtOp (applyExtOps emptyLut ops) op := by
    show List.foldl applyExtOp emptyLut (ops ++ [op])
      = applyExtOp (List.foldl applyExtOp emptyLut ops) op
    rw [List.foldl_append]
    rfl
  constructor
  · intro x i en h
    rw [happ]
    exact applyExtOp_preserves hgood op x i en h
  · intro x hx
    rw [happ]
    exact applyExtOp_frame hgood op x hx

theorem extension_append_only_witness :
    (∀ (x : Int) (i : Nat) (en : Entry),
      ((applyExtOps emptyLut [.toBitlen 3 (.int 2)]) x).bind (fun t => t[i]?) = some en →
      ((applyExtOps emptyLut ([.toBitlen 3 (.int 2)] ++ [.toPower 4 (.int 3)])) x).bind
        (fun t => t[i]?) = some en) ∧
    (∀ x : Int, pyKey (extOpBase (.toPower 4 (.int 3))) ≠ some x →
      (applyExtOps emptyLut ([.toBitlen 3 (.int 2)] ++ [.toPower 4 (.int 3)])) x
        = (applyExtOps emptyLut [.toBitlen 3 (.int 2)]) x) :=
  extension_append_only [.toBitlen 3 (.int 2)] (.toPower 4 (.int 3))

end Intlog

namespace Intlog

/-! ### C9: each `_ROUNDING` alias makes a dispatcher compute its named variant -/


theorem int_log_with_gtOps (v : Int) (base : PyNum) (lut : Lut) (a : RoundArg)
    (ha : ROUNDING a = some gtOps) : int_log v base a lut = gt_log v base lut := by
  simp only [int_log, gt_log, ha, gtOps]
  by_cases hv0 : v ≤ 0
  · simp [hv0]
  · simp only [if_neg hv0]
    cases hle : lookup_or_extend base lut (bit_length v) with
    | mk res lut₁ =>
      cases res with
      | error e => rfl
      | ok ep =>
        obtain ⟨exponent, power⟩ := ep
        simp [decide_eq_true_eq]

theorem int_pow_with_gtOps (v : Int) (base : PyNum) (lut : Lut) (a : RoundArg)
    (ha : ROUNDING a = some gtOps) : int_pow v base a lut = gt_pow v base lut := by
  simp only [int_pow, gt_pow, ha, gtOps]
  by_cases hv0 : v ≤ 0
  · simp [hv0]
  · simp only [if_neg hv0]
    cases hle : lookup_or_extend base lut (bit_length v) with
    | mk res lut₁ =>
      cases res with
      | error e => rfl
      | ok ep =>
        obtain ⟨exponent, power⟩ := ep
        simp [decide_eq_true_eq]

theorem fast_int_log_with_gtOps (v : Int) (base : PyNum) (lut : Lut) (a : RoundArg)
    (ha : ROUNDING a = some gtOps) : fast_int_log v base a lut = fast_gt_log v base lut := by
  rcases hf : lutFind lut base with _ | limits
  · simp only [fast_int_log, fast_gt_log, ha, gtOps, hf]
  · rcases hg2 : limits[bit_length v]? with _ | en
    · simp only [fast_int_log, fast_gt_log, ha, gtOps, hf, hg2]
    · rcases en with _ | ⟨exponent, power⟩
      · simp only [fast_int_log, fast_gt_log, ha, gtOps, hf, hg2]
      · simp only [fast_int_log, fast_gt_log, ha, gtOps, hf, hg2]
        simp [decide_eq_true_eq]

theorem fast_int_pow_with_gtOps (v : Int) (base : PyNum) (lut : Lut) (a : RoundArg)
    (ha : ROUNDING a = some gtOps) : fast_int_pow v base a lut = fast_gt_pow v base lut := by
  rcases hf : lutFind lut base with _ | limits
  · simp only [fast_int_pow, fast_gt_pow, ha, gtOps, hf]
  · rcases hg2 : limits[bit_length v]? with _ | en
    · simp only [fast_int_pow, fast_gt_pow, ha, gtOps, hf, hg2]
    · rcases en with _ | ⟨exponent, power⟩
      · simp only [fast_int_pow, fast_gt_pow, ha, gtOps, hf, hg2]
      · simp only [fast_int_pow, fast_gt_pow, ha, gtOps, hf, hg2]
        simp [decide_eq_true_eq]

theorem slow_int_log_with_gtOps (v bi : Int) (a : RoundArg)
    (ha : ROUNDING a = some gtOps) : slow_int_log v bi a = slow_gt_log v bi := by
  simp only [slow_int_log, slow_gt_log, ha, gtOps]
  by_cases hv0 : v ≤ 0
  · simp [hv0]
  · simp only [if_neg hv0]
    simp

theorem slow_int_pow_with_gtOps (v bi : Int) (a : RoundArg)
    (ha : ROUNDING a = some gtOps) : slow_int_pow v bi a = slow_gt_pow v bi := by
  simp only [slow_int_pow, slow_gt_pow, ha, gtOps]
  by_cases hv0 : v ≤ 0
  · simp [hv0]
  · simp only [if_neg hv0]
    simp


theorem int_log_with_geOps (v : Int) (base : PyNum) (lut : Lut) (a : RoundArg)
    (ha : ROUNDING a = some geOps) : int_log v base a lut = ge_log v base lut := by
  simp only [int_log, ge_log, ha, geOps]
  by_cases hv0 : v ≤ 0
  · simp [hv0]
  · simp only [if_neg hv0]
    cases hle : lookup_or_extend base lut (bit_length v) with
    | mk res lut₁ =>
      cases res with
      | error e => rfl
      | ok ep =>
        obtain ⟨exponent, power⟩ := ep
        simp [decide_eq_true_eq]

theorem int_pow_with_geOps (v : Int) (base : PyNum) (lut : Lut) (a : RoundArg)
    (ha : ROUNDING a = some geOps) : int_pow v base a lut = ge_pow v base lut := by
  simp only [int_pow, ge_pow, ha, geOps]
  by_cases hv0 : v ≤ 0
  · simp [hv0]
  · simp only [if_neg hv0]
    cases hle : lookup_or_extend base lut (bit_length v) with
    | mk res lut₁ =>
      cases res with
      | error e => rfl
      | ok ep =>
        obtain ⟨exponent, power⟩ := ep
        simp [decide_eq_true_eq]

theorem fast_int_log_with_geOps (v : Int) (base : PyNum) (lut : Lut) (a : RoundArg)
    (ha : ROUNDING a = some geOps) : fast_int_log v base a lut = fast_ge_log v base lut := by
  rcases hf : lutFind lut base with _ | limits
  · simp only [fast_int_log, fast_ge_log, ha, geOps, hf]
  · rcases hg2 : limits[bit_length v]? with _ | en
    · simp only [fast_int_log, fast_ge_log, ha, geOps, hf, hg2]
    · rcases en with _ | ⟨exponent, power⟩
      · simp only [fast_int_log, fast_ge_log, ha, geOps, hf, hg2]
      · simp only [fast_int_log, fast_ge_log, ha, geOps, hf, hg2]
        simp [decide_eq_true_eq]

theorem fast_int_pow_with_geOps (v : Int) (base : PyNum) (lut : Lut) (a : RoundArg)
    (ha : ROUNDING a = some geOps) : fast_int_pow v base a lut = fast_ge_pow v base lut := by
  rcases hf : lutFind lut base with _ | limits
  · simp only [fast_int_pow, fast_ge_pow, ha, geOps, hf]
  · rcases hg2 : limits[bit_length v]? with _ | en
    · simp only [fast_int_pow, fast_ge_pow, ha, geOps, hf, hg2]
    · rcases en with _ | ⟨exponent, power⟩
      · simp only [fast_int_pow, fast_ge_pow, ha, geOps, hf, hg2]
      · simp only [fast_int_pow, fast_ge_pow, ha, geOps, hf, hg2]
        simp [decide_eq_true_eq]

theorem slow_int_log_with_geOps (v bi : Int) (a : RoundArg)
    (ha : ROUNDING a = some geOps) : slow_int_log v bi a = slow_ge_log v bi := by
  simp only [slow_int_log, slow_ge_log, ha, geOps]
  by_cases hv0 : v ≤ 0
  · simp [hv0]
  · simp only [if_neg hv0]
    simp

theorem slow_int_pow_with_geOps (v bi : Int) (a : RoundArg)
    (ha : ROUNDING a = some geOps) : slow_int_pow v bi a = slow_ge_pow v bi := by
  simp only [slow_int_pow, slow_ge_pow, ha, geOps]
  by_cases hv0 : v ≤ 0
  · simp [hv0]
  · simp only [if_neg hv0]
    simp


theorem int_log_with_ltOps (v : Int) (base : PyNum) (lut : Lut) (a : RoundArg)
    (ha : ROUNDING a = some ltOps) : int_log v base a lut = lt_log v base lut := by
  simp only [int_log, lt_log, ha, ltOps]
  by_cases hv0 : v ≤ 0
  · simp [hv0]
  · simp only [if_neg hv0]
    cases hle : lookup_or_extend base lut (bit_length v) with
    | mk res lut₁ =>
      cases res with
      | error e => rfl
      | ok ep =>
        obtain ⟨exponent, power⟩ := ep
        simp [decide_eq_true_eq]

theorem int_pow_with_ltOps (v : Int) (base : PyNum) (lut : Lut) (a : RoundArg)
    (ha : ROUNDING a = some ltOps) : int_pow v base a lut = lt_pow v base lut := by
  simp only [int_pow, lt_pow, ha, ltOps]
  by_cases hv0 : v ≤ 0
  · simp [hv0]
  · simp only [if_neg hv0]
    cases hle : lookup_or_extend base lut (bit_length v) with
    | mk res lut₁ =>
      cases res with
      | error e => rfl
      | ok ep =>
        obtain ⟨exponent, power⟩ := ep
        simp [decide_eq_true_eq]

theorem fast_int_log_with_ltOps (v : Int) (base : PyNum) (lut : Lut) (a : RoundArg)
    (ha : ROUNDING a = some ltOps) : fast_int_log v base a lut = fast_lt_log v base lut := by
  rcases hf : lutFind lut base with _ | limits
  · simp only [fast_int_log, fast_lt_log, ha, ltOps, hf]
  · rcases hg2 : limits[bit_length v]? with _ | en
    · simp only [fast_int_log, fast_lt_log, ha, ltOps, hf, hg2]
    · rcases en with _ | ⟨exponent, power⟩
      · simp only [fast_int_log, fast_lt_log, ha, ltOps, hf, hg2]
      · simp only [fast_int_log, fast_lt_log, ha, ltOps, hf, hg2]
        simp [decide_eq_true_eq]

theorem fast_int_pow_with_ltOps (v : Int) (base : PyNum) (lut : Lut) (a : RoundArg)
    (ha : ROUNDING a = some ltOps) : fast_int_pow v base a lut = fast_lt_pow v base lut := by
  rcases hf : lutFind lut base with _ | limits
  · simp only [fast_int_pow, fast_lt_pow, ha, ltOps, hf]
  · rcases hg2 : limits[bit_length v]? with _ | en
    · simp only [fast_int_pow, fast_lt_pow, ha, ltOps, hf, hg2]
    · rcases en with _ | ⟨exponent, power⟩
      · simp only [fast_int_pow, fast_lt_pow, ha, ltOps, hf, hg2]
      · simp only [fast_int_pow, fast_lt_pow, ha, ltOps, hf, hg2]
        simp [decide_eq_true_eq]

theorem slow_int_log_with_ltOps (v bi : Int) (a : RoundArg)
    (ha : ROUNDING a = some ltOps) : slow_int_log v bi a = slow_lt_log v bi := by
  simp only [slow_int_log, slow_lt_log, ha, ltOps]

theorem slow_int_pow_with_ltOps (v bi : Int) (a : RoundArg)
    (ha : ROUNDING a = some ltOps) : slow_int_pow v bi a = slow_lt_pow v bi := by
  simp only [slow_int_pow, slow_lt_pow, ha, ltOps]
  by_cases hv0 : v ≤ 0
  · simp [hv0]
  · simp only [if_neg hv0]
    simp


theorem int_log_with_leOps (v : Int) (base : PyNum) (lut : Lut) (a : RoundArg)
    (ha : ROUNDING a = some leOps) : int_log v base a lut = le_log v base lut := by
  simp only [int_log, le_log, ha, leOps]
  by_cases hv0 : v ≤ 0
  · simp [hv0]
  · simp only [if_neg hv0]
    cases hle : lookup_or_extend base lut (bit_length v) with
    | mk res lut₁ =>
      cases res with
      | error e => rfl
      | ok ep =>
        obtain ⟨exponent, power⟩ := ep
        simp [decide_eq_true_eq]

theorem int_pow_with_leOps (v : Int) (base : PyNum) (lut : Lut) (a : RoundArg)
    (ha : ROUNDING a = some leOps) : int_pow v base a lut = le_pow v base lut := by
  simp only [int_pow, le_pow, ha, leOps]
  by_cases hv0 : v ≤ 0
  · simp [hv0]
  · simp only [if_neg hv0]
    cases hle : lookup_or_extend base lut (bit_length v) with
    | mk res lut₁ =>
      cases res with
      | error e => rfl
      | ok ep =>
        obtain ⟨exponent, power⟩ := ep
        simp [decide_eq_true_eq]

theorem fast_int_log_with_leOps (v : Int) (base : PyNum) (lut : Lut) (a : RoundArg)
    (ha : ROUNDING a = some leOps) : fast_int_log v base a lut = fast_le_log v base lut := by
  rcases hf : lutFind lut base with _ | limits
  · simp only [fast_int_log, fast_le_log, ha, leOps, hf]
  · rcases hg2 : limits[bit_length v]? with _ | en
    · simp only [fast_int_log, fast_le_log, ha, leOps, hf, hg2]
    · rcases en with _ | ⟨exponent, power⟩
      · simp only [fast_int_log, fast_le_log, ha, leOps, hf, hg2]
      · simp only [fast_int_log, fast_le_log, ha, leOps, hf, hg2]
        simp [decide_eq_true_eq]

theorem fast_int_pow_with_leOps (v : Int) (base : PyNum) (lut : Lut) (a : RoundArg)
    (ha : ROUNDING a = some leOps) : fast_int_pow v base a lut = fast_le_pow v base lut := by
  rcases hf : lutFind lut base with _ | limits
  · simp only [fast_int_pow, fast_le_pow, ha, leOps, hf]
  · rcases hg2 : limits[bit_length v]? with _ | en
    · simp only [fast_int_pow, fast_le_pow, ha, leOps, hf, hg2]
    · rcases en with _ | ⟨exponent, power⟩
      · simp only [fast_int_pow, fast_le_pow, ha, leOps, hf, hg2]
      · simp only [fast_int_pow, fast_le_pow, ha, leOps, hf, hg2]
        simp [decide_eq_true_eq]

theorem slow_int_log_with_leOps (v bi : Int) (a : RoundArg)
    (ha : ROUNDING a = some leOps) : slow_int_log v bi a = slow_le_log v bi := by
  simp only [slow_int_log, slow_le_log, ha, leOps]

theorem slow_int_pow_with_leOps (v bi : Int) (a : RoundArg)
    (ha : ROUNDING a = some leOps) : slow_int_pow v bi a = slow_le_pow v bi := by
  simp only [slow_int_pow, slow_le_pow, ha, leOps]
  by_cases hv0 : v ≤ 0
  · simp [hv0]
  · simp only [if_neg hv0]
    simp


/-- C9: calling a dispatcher with any alias of a rounding mode — its tag string, the
corresponding `operator`-module comparison function, or any of its symbol strings —
computes exactly what the correspondingly named dedicated function computes, for the
auto-extending, fast and slow dispatchers of both the log and pow families, on all
inputs and registry states. -/
theorem dispatcher_alias_agreement (m : Mode) (a : RoundArg) (ha : a ∈ aliases m)
    (v : Int) (base : PyNum) (bi : Int) (lut : Lut) :
    int_log v base a lut = mode_log m v base lut ∧
    int_pow v base a lut = mode_pow m v base lut ∧
    fast_int_log v base a lut = mode_fast_log m v base lut ∧
    fast_int_pow v base a lut = mode_fast_pow m v base lut ∧
    slow_int_log v bi a = mode_slow_log m v bi ∧
    slow_int_pow v bi a = mode_slow_pow m v bi := by
  cases m with
  | gt =>
    simp only [aliases] at ha
    have hr : ROUNDING a = some gtOps := by
      fin_cases ha <;> rfl
    exact ⟨int_log_with_gtOps v base lut a hr, int_pow_with_gtOps v base lut a hr,
      fast_int_log_with_gtOps v base lut a hr, fast_int_pow_with_gtOps v base lut a hr,
      slow_int_log_with_gtOps v bi a hr, slow_int_pow_with_gtOps v bi a hr⟩
  | ge =>
    simp only [aliases] at ha
    have hr : ROUNDING a = some geOps := by
      fin_cases ha <;> rfl
    exact ⟨int_log_with_geOps v base lut a hr, int_pow_with_geOps v base lut a hr,
      fast_int_log_with_geOps v base lut a hr, fast_int_pow_with_geOps v base lut a hr,
      slow_int_log_with_geOps v bi a hr, slow_int_pow_with_geOps v bi a hr⟩
  | lt =>
    simp only [aliases] at ha
    have hr : ROUNDING a = some ltOps := by
      fin_cases ha <;> rfl
    exact ⟨int_log_with_ltOps v base lut a hr, int_pow_with_ltOps v base lut a hr,
      fast_int_log_with_ltOps v base lut a hr, fast_int_pow_with_ltOps v base lut a hr,
      slow_int_log_with_ltOps v bi a hr, slow_int_pow_with_ltOps v bi a hr⟩
  | le =>
    simp only [aliases] at ha
    have hr : ROUNDING a = some leOps := by
      fin_cases ha <;> rfl
    exact ⟨int_log_with_leOps v base lut a hr, int_pow_with_leOps v base lut a hr,
      fast_int_log_with_leOps v base lut a hr, fast_int_pow_with_leOps v base lut a hr,
      slow_int_log_with_leOps v bi a hr, slow_int_pow_with_leOps v bi a hr⟩

theorem dispatcher_alias_agreement_witness :
    int_log 7 (.int 3) .symGe2 emptyLut = mode_log .ge 7 (.int 3) emptyLut ∧
    int_pow 7 (.int 3) .symGe2 emptyLut = mode_pow .ge 7 (.int 3) emptyLut ∧
    fast_int_log 7 (.int 3) .symGe2 emptyLut = mode_fast_log .ge 7 (.int 3) emptyLut ∧
    fast_int_pow 7 (.int 3) .symGe2 emptyLut = mode_fast_pow .ge 7 (.int 3) emptyLut ∧
    slow_int_log 7 3 .symGe2 = mode_slow_log .ge 7 3 ∧
    slow_int_pow 7 3 .symGe2 = mode_slow_pow .ge 7 3 :=
  dispatcher_alias_agreement .ge .symGe2 (by decide) 7 (.int 3) 3 emptyLut

end Intlog

namespace Intlog

/-! ### C10 -/

/-- The invariant a base's table actually maintains: index 0 holds the unused
sentinel, and every populated index `i ≥ 1` holds `(e, base ^ e)` where `base ^ e`
is the smallest power of the base whose bit length is at least `i`. -/
def TableInv (b : Int) (t : Table) : Prop :=
  t[(0 : Nat)]? = some none ∧
  ∀ (i : Nat) (x : Int × Int), 1 ≤ i → t[i]? = some (some x) →
    ∃ e : Nat, x = ((e : Int), b ^ e) ∧ i ≤ bit_length (b ^ e) ∧
      ∀ j : Nat, j < e → bit_length (b ^ j) < i

theorem tableN_zero_entry (b : Int) (hb : 2 ≤ b) (n : Nat) :
    (tableN b n)[(0 : Nat)]? = some none := by
  induction n with
  | zero => rfl
  | succ n ih =>
    rw [tableN_succ]
    unfold init_next_power
    rw [List.getElem?_append_left]
    · exact ih
    · rw [tableN_length b hb n]
      omega

theorem tableInv_tableN (b : Int) (hb : 2 ≤ b) (n : Nat) : TableInv b (tableN b n) := by
  constructor
  · exact tableN_zero_entry b hb n
  · intro i x hi hget
    have hcov : i ≤ bit_length (b ^ n) := by
      by_contra hc
      have hnone : (tableN b n)[i]? = none := by
        apply List.getElem?_eq_none
        rw [tableN_length b hb n]
        omega
      rw [hnone] at hget
      exact Option.noConfusion hget
    obtain ⟨e, he, hget2, hle, hmin⟩ := tableN_entry b hb n i hi hcov
    rw [hget2] at hget
    injection hget with hx
    injection hx with hx
    exact ⟨e, hx.symm, hle, hmin⟩

/-- C10: the table invariant the code actually maintains — index 0 is the sentinel,
and every populated index `i ≥ 1` holds `(e, base ^ e)` with `base ^ e` the smallest
power of the base whose bit length is ≥ `i` (consecutive indices may share one
checkpoint, and the stored power's bit length may exceed the index) — is established
by the seed table `[None, (0, 1)]` of any base, holds for every table of every
well-formed registry, and is preserved by every `extend_fast_range_to_power` and
`extend_fast_range_to_bitlen` call; it yields exactly the checkpoint property
(`CkptAt`) that makes the single boundary comparison of every query correct. -/
theorem table_invariant_maintained :
    (∀ b : Int, 2 ≤ b → TableInv b [none, some (0, 1)]) ∧
    (∀ lut : Lut, GoodLut lut → ∀ (b : Int) (t : Table), lut b = some t → TableInv b t) ∧
    (∀ lut : Lut, GoodLut lut → ∀ (op : ExtOp) (b : Int) (t : Table),
      (applyExtOp lut op) b = some t → TableInv b t) ∧
    (∀ lut : Lut, GoodLut lut → ∀ b v : Int, 2 ≤ b → 1 ≤ v →
      ∃ (e : Nat) (lut' : Lut),
        lookup_or_extend (.int b) lut (bit_length v) = (.ok ((e : Int), b ^ e), lut') ∧
        CkptAt b (bit_length v) e) := by
  have hgood : ∀ lut : Lut, GoodLut lut → ∀ (b : Int) (t : Table), lut b = some t →
      TableInv b t := by
    intro lut hg b t hsome
    obtain ⟨hb2, n, rfl⟩ := hg b t hsome
    exact tableInv_tableN b hb2 n
  refine ⟨?_, hgood, ?_, ?_⟩
  · intro b hb
    have h := tableInv_tableN b hb 0
    exact h
  · intro lut hg op b t hsome
    exact hgood _ (applyExtOp_good hg op) b t hsome
  · intro lut hg b v hb hv
    obtain ⟨e, lut', heq, hc, _, _⟩ := lookup_or_extend_ok hg hb (bit_length_pos hv)
    exact ⟨e, lut', heq, hc⟩

theorem table_invariant_maintained_witness :
    TableInv 2 [none, some (0, 1)] ∧ TableInv 6 [none, some (0, 1)] :=
  ⟨table_invariant_maintained.1 2 (by norm_num),
    table_invariant_maintained.1 6 (by norm_num)⟩

end Intlog
